import Mathlib

/-!
# pidctl: the exact-rational PID controller

A shallow embedding of `controller.go` and of the constructor of
`controller_float64.go` (package `pidctl`).

* A `*big.Rat` field is an `Option ℚ`: `none` is the nil pointer, `some q` a
  pointer to the rational `q`.  `Accumulate` writes only into rationals it has
  freshly allocated (`dt`, `err`, `proportional`, `integral`, `derivative`,
  `output`), so no value changes behind a pointer during a call and the pointer
  graph is not modelled inside a call.  Between calls one pointer matters:
  `Accumulate` keeps the pointer it is given as the previous measurement
  (`v.Set(v)` copies nothing), so a caller that writes to that rational later
  changes the stored previous measurement.  `run` is the caller that hands
  every call a rational of its own, as `ControllerFloat64.Accumulate` does;
  `runShared` is the caller that keeps one rational and overwrites it.  A bound
  that a call returns is assumed not to be written to by the caller.
* The measurement passed to `Accumulate` is a rational, that is a non-nil
  pointer.
* `sync.Once` is the boolean `initOnce`: `true` once the guarded body has run.
* `time.Duration` is an integer count of nanoseconds; `/` on it is Go's
  integer division, which truncates toward zero (`Int.tdiv`).  The theorems
  hold for every integer, the 64-bit range included.
* A nil-pointer dereference or a division by zero inside `math/big` panics;
  a panicking call is `none`.
* A `float64` is either finite, standing for the rational it equals, or one of
  NaN, `+Inf`, `-Inf`; `big.Rat.SetFloat64` returns nil on the latter three.
-/

namespace Pidctl

/-! ## The parts of `math/big` and `time` the controller uses -/

/-- The constant `time.Second`, in nanoseconds. -/
def Second : Int := 1000000000

/-- The package-level `ratZero`. -/
def ratZero : ℚ := 0

/-- The conversion `int64(duration / time.Second)` followed by `SetInt64`:
    the whole seconds of a duration in nanoseconds, the quotient truncated
    toward zero as Go's integer division does. -/
def seconds (duration : Int) : ℚ := ((Int.tdiv duration Second : Int) : ℚ)

/-- The three-way comparison `x.Cmp(y)` of `big.Rat`: `-1`, `0` or `+1`. -/
def ratCmp (x y : ℚ) : Int :=
  if x < y then -1 else if x = y then 0 else 1

/-- The quotient `z.Quo(x, y)` of `big.Rat`, which panics when `y` is zero. -/
def ratQuo (x y : ℚ) : Option ℚ :=
  if y = 0 then none else some (x / y)

/-! ## The controller -/

/-- The struct `Controller`. -/
structure Controller where
  /-- proportional gain -/
  P : Option ℚ
  /-- integral reset -/
  I : Option ℚ
  /-- derivative term -/
  D : Option ℚ
  /-- current setpoint -/
  Setpoint : Option ℚ
  /-- lowest value acceptable for the output -/
  Min : Option ℚ
  /-- highest value acceptable for the output -/
  Max : Option ℚ
  prevProcessVariable : Option ℚ
  accumulatedIntegral : Option ℚ
  /-- whether the body guarded by `initOnce` has already run -/
  initOnce : Bool
  deriving DecidableEq

namespace Controller

/-- The body of the closure passed to `initOnce.Do`: every nil numeric field
    gets a fresh zero; `Min` and `Max` are not touched. -/
def initBody (p : Controller) : Controller :=
  let p := if p.P = none then { p with P := some 0 } else p
  let p := if p.I = none then { p with I := some 0 } else p
  let p := if p.D = none then { p with D := some 0 } else p
  let p := if p.Setpoint = none then { p with Setpoint := some 0 } else p
  let p := if p.prevProcessVariable = none then { p with prevProcessVariable := some 0 } else p
  let p := if p.accumulatedIntegral = none then { p with accumulatedIntegral := some 0 } else p
  p

/-- The method `init`: `initOnce.Do` runs the body the first time only. -/
def init (p : Controller) : Controller :=
  if p.initOnce then p else { initBody p with initOnce := true }

/-- The method `enforceRange`; the result is the rational the returned pointer
    points to.  The test `p.Max != nil && v.Cmp(p.Max) > 0` comes first, the test
    `p.Min != nil && v.Cmp(p.Min) < 0` second; a nil bound fails its test. -/
def enforceRange (p : Controller) (v : ℚ) : ℚ :=
  match p.Max, p.Min with
  | some mx, some mn =>
    if ratCmp v mx > 0 then mx else if ratCmp v mn < 0 then mn else v
  | some mx, none =>
    if ratCmp v mx > 0 then mx else v
  | none, some mn =>
    if ratCmp v mn < 0 then mn else v
  | none, none => v

/-- The method `Accumulate(v, duration)`: `none` when the call panics,
    otherwise the returned output and the controller after the call. -/
def Accumulate (p : Controller) (v : ℚ) (duration : Int) : Option (ℚ × Controller) := do
  let p := p.init
  let processVariable := v
  let output : ℚ := 0
  let prevProcessVariable := p.prevProcessVariable
  let p := { p with prevProcessVariable := some processVariable }
  let dt : ℚ := seconds duration
  let err := (← p.Setpoint) - processVariable
  -- Proportional Gain
  let proportional := (← p.P) * err
  let output := output + proportional
  -- Integral Reset
  let integral := err * dt * (← p.I) + (← p.accumulatedIntegral)
  let p := { p with accumulatedIntegral := some (p.enforceRange integral) }
  let output := output + (← p.accumulatedIntegral)
  -- Derivative Term
  let derivative : ℚ ←
    if ratCmp dt ratZero > 0 then do
      let derivative := processVariable - (← prevProcessVariable)
      let derivative ← ratQuo derivative dt
      pure (-derivative)
    else
      pure 0
  let derivative := derivative * (← p.D)
  let output := output + derivative
  pure (p.enforceRange output, p)

/-! ## A controller driven through a sequence of calls -/

/-- A controller as a composite literal builds it,
    `Controller{P: .., I: .., D: .., Setpoint: .., Min: .., Max: ..}`: the
    unexported fields are nil and the once-guard has not run. -/
def fresh (P I D Setpoint Min Max : Option ℚ) : Controller :=
  { P := P, I := I, D := D, Setpoint := Setpoint, Min := Min, Max := Max,
    prevProcessVariable := none, accumulatedIntegral := none, initOnce := false }

/-- One cycle of the control loop that owns a controller: before the call the
    loop may store a new gain or setpoint in an exported field (`some x` stores
    `x`, `none` leaves the field as it is), then it calls
    `Accumulate` with the measurement `input` and the duration. -/
structure Cycle where
  P : Option ℚ
  I : Option ℚ
  D : Option ℚ
  Setpoint : Option ℚ
  input : ℚ
  duration : Int
  deriving DecidableEq

/-- An assignment `field = x` that happens only when a new value is given. -/
def assign (new old : Option ℚ) : Option ℚ :=
  match new with
  | some x => some x
  | none => old

/-- The stores a cycle makes into the exported fields before its call. -/
def retune (p : Controller) (c : Cycle) : Controller :=
  { p with
      P := assign c.P p.P
      I := assign c.I p.I
      D := assign c.D p.D
      Setpoint := assign c.Setpoint p.Setpoint }

/-- The cycles run one after the other on the same controller, by a caller
    that allocates a new rational for the measurement of every call and never
    writes to it again (as `ControllerFloat64.Accumulate` does with
    `ratFloat64(pv)`), so that the pointer a call stores as the previous
    measurement keeps its value: the outputs in order and the controller after
    the last call; `none` if a call panics. -/
def run (p : Controller) : List Cycle → Option (List ℚ × Controller)
  | [] => some ([], p)
  | c :: cs =>
    match (p.retune c).Accumulate c.input c.duration with
    | none => none
    | some (out, p') =>
      match run p' cs with
      | none => none
      | some (outs, p'') => some (out :: outs, p'')

/-- The cycles run one after the other by a caller that keeps a single
    `*big.Rat` for the measurement and writes each new measurement into it
    before the call.  `Accumulate` stores the pointer it is given
    (`processVariable = v.Set(v)` copies nothing, and
    `p.prevProcessVariable = processVariable`), so from the first call on the
    stored previous measurement is that very rational: `held` tells whether it
    is, and when it is, the write of the caller changes the stored previous
    measurement as well. -/
def runShared (p : Controller) (held : Bool) : List Cycle → Option (List ℚ × Controller)
  | [] => some ([], p)
  | c :: cs =>
    let p := if held then { p with prevProcessVariable := some c.input } else p
    match (p.retune c).Accumulate c.input c.duration with
    | none => none
    | some (out, p') =>
      match runShared p' true cs with
      | none => none
      | some (outs, p'') => some (out :: outs, p'')

/-- The states a controller is in between calls: either the once-guard has not
    run yet (any field may still be nil), or it has and then the six numeric
    fields are all non-nil. -/
def Ready (p : Controller) : Prop :=
  p.initOnce = false ∨
    (p.P ≠ none ∧ p.I ≠ none ∧ p.D ≠ none ∧ p.Setpoint ≠ none ∧
      p.prevProcessVariable ≠ none ∧ p.accumulatedIntegral ≠ none)

instance (p : Controller) : Decidable p.Ready := by
  unfold Ready
  infer_instance

/-- A controller after a call: the once-guard has run and the six numeric
    fields hold the given rationals. -/
def settled (kP kI kD sp : ℚ) (mn mx : Option ℚ) (prev acc : ℚ) : Controller :=
  { P := some kP, I := some kI, D := some kD, Setpoint := some sp, Min := mn, Max := mx,
    prevProcessVariable := some prev, accumulatedIntegral := some acc, initOnce := true }

/-- The setpoint each call of a run reads: the one the cycle stores, or else the
    one in force at the call before (`sp` before the first call). -/
def setpoints (sp : ℚ) : List Cycle → List ℚ
  | [] => []
  | c :: cs => c.Setpoint.getD sp :: setpoints (c.Setpoint.getD sp) cs

end Controller

/-! ## The float64 adapter (`controller_float64.go`) -/

/-- A `float64` as far as `big.Rat.SetFloat64` tells values apart: a finite
    value, given by the rational it is exactly equal to, or one of the three
    kinds of non-finite value. -/
inductive Float64 where
  | finite (value : ℚ)
  | nan
  | posInf
  | negInf
  deriving DecidableEq

/-- Whether a `float64` is finite (neither NaN nor an infinity). -/
def Float64.isFinite : Float64 → Bool
  | .finite _ => true
  | _ => false

/-- The call `new(big.Rat).SetFloat64(f)` of `math/big`: a pointer to the exact
    value of `f`, or nil when `f` is not finite. -/
def setFloat64 : Float64 → Option ℚ
  | .finite value => some value
  | _ => none

/-- The function `ratFloat64`. -/
def ratFloat64 (i : Float64) : Option ℚ := setFloat64 i

/-- The struct `ControllerFloat64`. -/
structure ControllerFloat64 where
  controller : Controller
  deriving DecidableEq

/-- The function `NewControllerFloat64`: it has one result, the controller, and
    no error result. -/
def NewControllerFloat64 (p i d setpoint : Float64) : ControllerFloat64 :=
  let c : ControllerFloat64 :=
    { controller :=
        { P := ratFloat64 p, I := ratFloat64 i, D := ratFloat64 d,
          Setpoint := ratFloat64 setpoint, Min := none, Max := none,
          prevProcessVariable := none, accumulatedIntegral := none, initOnce := false } }
  { c with controller := c.controller.init }

namespace Controller

/-! ## Basic facts about the embedding -/

theorem ratCmp_pos (x y : ℚ) : ratCmp x y > 0 ↔ x > y := by
  unfold ratCmp
  rcases lt_trichotomy x y with h | h | h
  · simp [h, not_lt.mpr h.le]
  · simp [h]
  · simp [h, not_lt.mpr h.le, h.ne']

theorem ratCmp_neg (x y : ℚ) : ratCmp x y < 0 ↔ x < y := by
  unfold ratCmp
  rcases lt_trichotomy x y with h | h | h
  · simp [h]
  · simp [h]
  · simp [h, not_lt.mpr h.le, h.ne']

theorem ratQuo_of_pos (x y : ℚ) (h : 0 < y) : ratQuo x y = some (x / y) := by
  simp [ratQuo, h.ne']

/-- `enforceRange` written with the order on `ℚ` instead of `Cmp`. -/
theorem enforceRange_eq (p : Controller) (v : ℚ) :
    p.enforceRange v =
      match p.Max, p.Min with
      | some mx, some mn => if v > mx then mx else if v < mn then mn else v
      | some mx, none => if v > mx then mx else v
      | none, some mn => if v < mn then mn else v
      | none, none => v := by
  unfold enforceRange
  rcases hmx : p.Max with _ | mx <;> rcases hmn : p.Min with _ | mn <;>
    simp only [ratCmp_pos, ratCmp_neg]

/-- `enforceRange` reads nothing of the controller but `Min` and `Max`. -/
theorem enforceRange_congr (p q : Controller) (v : ℚ)
    (hmin : q.Min = p.Min) (hmax : q.Max = p.Max) :
    q.enforceRange v = p.enforceRange v := by
  unfold enforceRange
  rw [hmin, hmax]

/-- The initialisation body in closed form. -/
theorem initBody_eq (p : Controller) :
    p.initBody =
      { P := some (p.P.getD 0), I := some (p.I.getD 0), D := some (p.D.getD 0),
        Setpoint := some (p.Setpoint.getD 0), Min := p.Min, Max := p.Max,
        prevProcessVariable := some (p.prevProcessVariable.getD 0),
        accumulatedIntegral := some (p.accumulatedIntegral.getD 0),
        initOnce := p.initOnce } := by
  rcases p with ⟨_ | kP, _ | kI, _ | kD, _ | sp, mn, mx, _ | prev, _ | acc, once⟩ <;> rfl

theorem initBody_Min (p : Controller) : p.initBody.Min = p.Min := by
  rw [initBody_eq]

theorem initBody_Max (p : Controller) : p.initBody.Max = p.Max := by
  rw [initBody_eq]

theorem init_Min (p : Controller) : p.init.Min = p.Min := by
  unfold init
  split
  · rfl
  · exact initBody_Min p

theorem init_Max (p : Controller) : p.init.Max = p.Max := by
  unfold init
  split
  · rfl
  · exact initBody_Max p

/-- What `Accumulate` computes once the six numeric fields read after `init`
    are known. -/
theorem Accumulate_of_init (p : Controller) (kP kI kD sp prev acc v : ℚ) (duration : Int)
    (hP : p.init.P = some kP) (hI : p.init.I = some kI) (hD : p.init.D = some kD)
    (hS : p.init.Setpoint = some sp) (hprev : p.init.prevProcessVariable = some prev)
    (hacc : p.init.accumulatedIntegral = some acc) :
    p.Accumulate v duration =
      some (p.enforceRange (kP * (sp - v)
              + p.enforceRange ((sp - v) * seconds duration * kI + acc)
              + (if seconds duration > 0 then -((v - prev) / seconds duration) else 0) * kD),
            { p.init with
                prevProcessVariable := some v
                accumulatedIntegral :=
                  some (p.enforceRange ((sp - v) * seconds duration * kI + acc)) }) := by
  have e : ∀ (q : Controller) (x : ℚ), q.Min = p.Min → q.Max = p.Max →
      q.enforceRange x = p.enforceRange x := fun q x h1 h2 => enforceRange_congr p q x h1 h2
  unfold Accumulate
  by_cases hdt : seconds duration > 0
  · simp [hP, hI, hD, hS, hprev, hacc, ratCmp_pos, ratZero, hdt, ratQuo_of_pos, e, init_Min, init_Max]
  · simp [hP, hI, hD, hS, hprev, hacc, ratCmp_pos, ratZero, hdt, e, init_Min, init_Max]

/-- On a controller whose six numeric fields are all set, `init` only marks
    the once-guard as run. -/
theorem init_of_set (p : Controller) {kP kI kD sp prev acc : ℚ}
    (hP : p.P = some kP) (hI : p.I = some kI) (hD : p.D = some kD)
    (hS : p.Setpoint = some sp) (hprev : p.prevProcessVariable = some prev)
    (hacc : p.accumulatedIntegral = some acc) :
    p.init = { p with initOnce := true } := by
  rcases p with ⟨P, I, D, S, mn, mx, pv, ai, once⟩
  simp only at hP hI hD hS hprev hacc
  subst hP hI hD hS hprev hacc
  cases once <;> simp [init, initBody_eq]

/-- With both bounds set and in order, `enforceRange` lands in `[Min, Max]`. -/
theorem enforceRange_mem (p : Controller) (v mn mx : ℚ)
    (hmin : p.Min = some mn) (hmax : p.Max = some mx) (hle : mn ≤ mx) :
    mn ≤ p.enforceRange v ∧ p.enforceRange v ≤ mx := by
  rw [enforceRange_eq, hmin, hmax]
  simp only
  split_ifs with h1 h2
  · exact ⟨hle, le_refl _⟩
  · exact ⟨le_refl _, hle⟩
  · exact ⟨not_lt.mp h2, not_lt.mp h1⟩

/-- With only `Max` set, `enforceRange` is the minimum with `Max`. -/
theorem enforceRange_max_only (p : Controller) (v mx : ℚ)
    (hmin : p.Min = none) (hmax : p.Max = some mx) :
    p.enforceRange v = min v mx := by
  rw [enforceRange_eq, hmin, hmax]
  simp only
  split_ifs with h1
  · exact (min_eq_right h1.le).symm
  · exact (min_eq_left (not_lt.mp h1)).symm

/-- With only `Min` set, `enforceRange` is the maximum with `Min`. -/
theorem enforceRange_min_only (p : Controller) (v mn : ℚ)
    (hmin : p.Min = some mn) (hmax : p.Max = none) :
    p.enforceRange v = max v mn := by
  rw [enforceRange_eq, hmin, hmax]
  simp only
  split_ifs with h1
  · exact (max_eq_right h1.le).symm
  · exact (max_eq_left (not_lt.mp h1)).symm

/-- With no bound set, `enforceRange` is the identity. -/
theorem enforceRange_unbounded (p : Controller) (v : ℚ)
    (hmin : p.Min = none) (hmax : p.Max = none) :
    p.enforceRange v = v := by
  rw [enforceRange_eq, hmin, hmax]

/-- What `Accumulate` computes on a controller whose six numeric fields are set. -/
theorem Accumulate_of_set (p : Controller) (kP kI kD sp prev acc v : ℚ) (duration : Int)
    (hP : p.P = some kP) (hI : p.I = some kI) (hD : p.D = some kD)
    (hS : p.Setpoint = some sp) (hprev : p.prevProcessVariable = some prev)
    (hacc : p.accumulatedIntegral = some acc) :
    p.Accumulate v duration =
      some (p.enforceRange (kP * (sp - v)
              + p.enforceRange ((sp - v) * seconds duration * kI + acc)
              + (if seconds duration > 0 then -((v - prev) / seconds duration) else 0) * kD),
            { p with
                prevProcessVariable := some v
                accumulatedIntegral :=
                  some (p.enforceRange ((sp - v) * seconds duration * kI + acc))
                initOnce := true }) := by
  have hi := init_of_set p hP hI hD hS hprev hacc
  rw [Accumulate_of_init p kP kI kD sp prev acc v duration (by rw [hi]; exact hP)
    (by rw [hi]; exact hI) (by rw [hi]; exact hD) (by rw [hi]; exact hS)
    (by rw [hi]; exact hprev) (by rw [hi]; exact hacc), hi]

/-- After `init`, a ready controller has all six numeric fields set. -/
theorem Ready.init_fields {p : Controller} (h : p.Ready) :
    ∃ kP kI kD sp prev acc, p.init.P = some kP ∧ p.init.I = some kI ∧ p.init.D = some kD ∧
      p.init.Setpoint = some sp ∧ p.init.prevProcessVariable = some prev ∧
      p.init.accumulatedIntegral = some acc := by
  rcases p with ⟨P, I, D, S, mn, mx, pv, ai, once⟩
  cases once
  · refine ⟨P.getD 0, I.getD 0, D.getD 0, S.getD 0, pv.getD 0, ai.getD 0, ?_⟩
    simp [init, initBody_eq]
  · rcases h with h | ⟨h1, h2, h3, h4, h5, h6⟩
    · simp at h
    · simp only [ne_eq] at h1 h2 h3 h4 h5 h6
      obtain ⟨kP, rfl⟩ := Option.ne_none_iff_exists'.mp h1
      obtain ⟨kI, rfl⟩ := Option.ne_none_iff_exists'.mp h2
      obtain ⟨kD, rfl⟩ := Option.ne_none_iff_exists'.mp h3
      obtain ⟨sp, rfl⟩ := Option.ne_none_iff_exists'.mp h4
      obtain ⟨prev, rfl⟩ := Option.ne_none_iff_exists'.mp h5
      obtain ⟨acc, rfl⟩ := Option.ne_none_iff_exists'.mp h6
      exact ⟨kP, kI, kD, sp, prev, acc, rfl, rfl, rfl, rfl, rfl, rfl⟩

/-- A call on a ready controller returns, leaves the controller ready and the
    bounds as they were, and stores a clamped value as the integral. -/
theorem Ready.accumulate {p : Controller} (h : p.Ready) (m : ℚ) (d : Int) :
    ∃ out p', p.Accumulate m d = some (out, p') ∧ p'.Ready ∧ p'.Min = p.Min ∧
      p'.Max = p.Max ∧ ∃ v, p'.accumulatedIntegral = some (p.enforceRange v) := by
  obtain ⟨kP, kI, kD, sp, prev, acc, hP, hI, hD, hS, hprev, hacc⟩ := h.init_fields
  rw [Accumulate_of_init p kP kI kD sp prev acc m d hP hI hD hS hprev hacc]
  refine ⟨_, _, rfl, Or.inr ?_, init_Min p, init_Max p, _, rfl⟩
  simp [hP, hI, hD, hS]

theorem Ready.retune {p : Controller} (h : p.Ready) (c : Cycle) : (p.retune c).Ready := by
  rcases h with h | ⟨h1, h2, h3, h4, h5, h6⟩
  · exact Or.inl h
  · refine Or.inr ⟨?_, ?_, ?_, ?_, h5, h6⟩
    · show assign c.P p.P ≠ none
      cases c.P <;> simp [assign, h1]
    · show assign c.I p.I ≠ none
      cases c.I <;> simp [assign, h2]
    · show assign c.D p.D ≠ none
      cases c.D <;> simp [assign, h3]
    · show assign c.Setpoint p.Setpoint ≠ none
      cases c.Setpoint <;> simp [assign, h4]

theorem init_initOnce (p : Controller) : p.init.initOnce = true := by
  unfold init
  split
  · assumption
  · rfl

theorem init_of_once (p : Controller) (h : p.initOnce = true) : p.init = p := by
  simp [init, h]

theorem retune_Min (p : Controller) (c : Cycle) : (p.retune c).Min = p.Min := rfl

theorem retune_Max (p : Controller) (c : Cycle) : (p.retune c).Max = p.Max := rfl

/-- With the bounds in order whenever both are set, clamping twice is
    clamping once. -/
theorem enforceRange_idem (p : Controller) (v : ℚ)
    (hord : ∀ mn mx, p.Min = some mn → p.Max = some mx → mn ≤ mx) :
    p.enforceRange (p.enforceRange v) = p.enforceRange v := by
  rcases hmx : p.Max with _ | mx <;> rcases hmn : p.Min with _ | mn
  · simp only [enforceRange_unbounded p _ hmn hmx]
  · simp only [enforceRange_min_only p _ mn hmn hmx, max_assoc, max_self]
  · simp only [enforceRange_max_only p _ mx hmn hmx, min_assoc, min_self]
  · have hle := hord mn mx hmn hmx
    have hm := enforceRange_mem p v mn mx hmn hmx hle
    generalize p.enforceRange v = w at hm
    rw [enforceRange_eq, hmx, hmn]
    simp only
    rw [if_neg (not_lt.mpr hm.2), if_neg (not_lt.mpr hm.1)]

/-- One call with all gains zero: if the stored integral clamps to `clamp 0`,
    the call returns `clamp 0` and stores `clamp 0`. -/
theorem zero_gain_step (p : Controller) (a m : ℚ) (d : Int) (hready : p.Ready)
    (hP : p.init.P = some 0) (hI : p.init.I = some 0) (hD : p.init.D = some 0)
    (hacc : p.init.accumulatedIntegral = some a)
    (ha : p.enforceRange a = p.enforceRange 0)
    (hord : ∀ mn mx, p.Min = some mn → p.Max = some mx → mn ≤ mx) :
    ∃ p', p.Accumulate m d = some (p.enforceRange 0, p') ∧ p'.Ready ∧
      p'.Min = p.Min ∧ p'.Max = p.Max ∧ p'.initOnce = true ∧
      p'.P = some 0 ∧ p'.I = some 0 ∧ p'.D = some 0 ∧
      p'.accumulatedIntegral = some (p.enforceRange 0) := by
  obtain ⟨kP, kI, kD, sp, prev, acc, hP', hI', hD', hS, hprev, hacc'⟩ := hready.init_fields
  rw [Accumulate_of_init p 0 0 0 sp prev a m d hP hI hD hS hprev hacc]
  simp only [zero_mul, mul_zero, zero_add, add_zero, ha, enforceRange_idem p 0 hord]
  refine ⟨_, rfl, Or.inr ?_, init_Min p, init_Max p, init_initOnce p, hP, hI, hD, rfl⟩
  simp [hP, hI, hD, hS]

/-- What the six numeric fields read after `init`, field by field. -/
theorem init_eq (p : Controller) :
    p.init = if p.initOnce = true then p else
      { P := some (p.P.getD 0), I := some (p.I.getD 0), D := some (p.D.getD 0),
        Setpoint := some (p.Setpoint.getD 0), Min := p.Min, Max := p.Max,
        prevProcessVariable := some (p.prevProcessVariable.getD 0),
        accumulatedIntegral := some (p.accumulatedIntegral.getD 0),
        initOnce := true } := by
  unfold init
  rw [initBody_eq]

/-- A zero gain stays zero through a store that is absent or stores zero. -/
theorem assign_zero (new old : Option ℚ) (once : Bool)
    (hnew : new = none ∨ new = some 0)
    (hold : (if once = true then old else some (old.getD 0)) = some 0) :
    (if once = true then assign new old else some ((assign new old).getD 0)) = some 0 := by
  rcases hnew with rfl | rfl
  · exact hold
  · cases once <;> simp [assign]

theorem init_retune_zero (p : Controller) (c : Cycle)
    (hcP : c.P = none ∨ c.P = some 0) (hcI : c.I = none ∨ c.I = some 0)
    (hcD : c.D = none ∨ c.D = some 0)
    (hP : p.init.P = some 0) (hI : p.init.I = some 0) (hD : p.init.D = some 0) :
    (p.retune c).init.P = some 0 ∧ (p.retune c).init.I = some 0 ∧
      (p.retune c).init.D = some 0 ∧
      (p.retune c).init.accumulatedIntegral = p.init.accumulatedIntegral := by
  rw [init_eq] at hP hI hD ⊢
  rw [init_eq p]
  have h1 := assign_zero c.P p.P p.initOnce hcP (by split <;> simp_all)
  have h2 := assign_zero c.I p.I p.initOnce hcI (by split <;> simp_all)
  have h3 := assign_zero c.D p.D p.initOnce hcD (by split <;> simp_all)
  simp only [retune] at h1 h2 h3 ⊢
  cases hon : p.initOnce <;> simp_all

/-- A run in which every gain is and stays zero returns `clamp 0` at every
    call. -/
theorem run_zero_gain (p : Controller) (cs : List Cycle) (a : ℚ) (hready : p.Ready)
    (hP : p.init.P = some 0) (hI : p.init.I = some 0) (hD : p.init.D = some 0)
    (hacc : p.init.accumulatedIntegral = some a)
    (ha : p.enforceRange a = p.enforceRange 0)
    (hord : ∀ mn mx, p.Min = some mn → p.Max = some mx → mn ≤ mx)
    (hgain : ∀ c ∈ cs, (c.P = none ∨ c.P = some 0) ∧ (c.I = none ∨ c.I = some 0) ∧
      (c.D = none ∨ c.D = some 0)) :
    ∃ p', p.run cs = some (List.replicate cs.length (p.enforceRange 0), p') := by
  induction cs generalizing p a with
  | nil => exact ⟨p, rfl⟩
  | cons c cs ih =>
    obtain ⟨hcP, hcI, hcD⟩ := hgain c (List.mem_cons_self c cs)
    obtain ⟨hP1, hI1, hD1, hacc1⟩ := init_retune_zero p c hcP hcI hcD hP hI hD
    have e : ∀ x, (p.retune c).enforceRange x = p.enforceRange x :=
      fun x => enforceRange_congr p (p.retune c) x rfl rfl
    obtain ⟨p1, hstep, hready1, hmin1, hmax1, honce1, hP2, hI2, hD2, hacc2⟩ :=
      zero_gain_step (p.retune c) a c.input c.duration (hready.retune c) hP1 hI1 hD1
        (hacc1.trans hacc) (by rw [e, e]; exact ha) hord
    have e1 : ∀ x, p1.enforceRange x = p.enforceRange x :=
      fun x => enforceRange_congr p p1 x hmin1 hmax1
    have hi1 := init_of_once p1 honce1
    obtain ⟨p2, hrun⟩ := ih p1 ((p.retune c).enforceRange 0) hready1
      (by rw [hi1]; exact hP2) (by rw [hi1]; exact hI2) (by rw [hi1]; exact hD2)
      (by rw [hi1]; exact hacc2)
      (by rw [e, e1, e1]; exact enforceRange_idem p 0 hord)
      (by rw [hmin1, hmax1]; exact hord)
      (fun c' hc' => hgain c' (List.mem_cons_of_mem c hc'))
    refine ⟨p2, ?_⟩
    rw [run, hstep]
    simp only
    rw [hrun, e1, e, List.length_cons, List.replicate_succ]

/-- Whenever `Accumulate` returns, the five fields it always reads were set
    after `init`, and so was the previous measurement if a whole second or more
    had elapsed; the returned value is the clamp of the three-term sum. -/
theorem Accumulate_some (p p' : Controller) (v out : ℚ) (duration : Int)
    (h : p.Accumulate v duration = some (out, p')) :
    ∃ kP kI kD sp acc, p.init.P = some kP ∧ p.init.I = some kI ∧ p.init.D = some kD ∧
      p.init.Setpoint = some sp ∧ p.init.accumulatedIntegral = some acc ∧
      (seconds duration > 0 → p.init.prevProcessVariable ≠ none) ∧
      out = p.enforceRange (kP * (sp - v)
              + p.enforceRange ((sp - v) * seconds duration * kI + acc)
              + (if seconds duration > 0 then
                  -((v - p.init.prevProcessVariable.getD 0) / seconds duration)
                else 0) * kD) := by
  have e : ∀ (q : Controller) (x : ℚ), q.Min = p.Min → q.Max = p.Max →
      q.enforceRange x = p.enforceRange x := fun q x h1 h2 => enforceRange_congr p q x h1 h2
  unfold Accumulate at h
  rcases hS : p.init.Setpoint with _ | sp
  · simp [hS] at h
  rcases hP : p.init.P with _ | kP
  · simp [hS, hP] at h
  rcases hI : p.init.I with _ | kI
  · simp [hS, hP, hI] at h
  rcases hacc : p.init.accumulatedIntegral with _ | acc
  · simp [hS, hP, hI, hacc] at h
  rcases hD : p.init.D with _ | kD
  · by_cases hdt : seconds duration > 0
    · rcases hprev : p.init.prevProcessVariable with _ | prev
      · simp [hS, hP, hI, hacc, hD, hprev, ratCmp_pos, ratZero, hdt] at h
      · simp [hS, hP, hI, hacc, hD, hprev, ratCmp_pos, ratZero, hdt, ratQuo_of_pos] at h
    · simp [hS, hP, hI, hacc, hD, ratCmp_pos, ratZero, hdt] at h
  refine ⟨kP, kI, kD, sp, acc, rfl, rfl, rfl, rfl, rfl, ?_⟩
  by_cases hdt : seconds duration > 0
  · rcases hprev : p.init.prevProcessVariable with _ | prev
    · simp [hS, hP, hI, hacc, hD, hprev, ratCmp_pos, ratZero, hdt] at h
    · simp [hS, hP, hI, hacc, hD, hprev, ratCmp_pos, ratZero, hdt, ratQuo_of_pos, e,
        init_Min, init_Max] at h
      refine ⟨fun _ => by simp, ?_⟩
      rw [← h.1]
      simp [hdt]
  · simp [hS, hP, hI, hacc, hD, ratCmp_pos, ratZero, hdt, e, init_Min, init_Max] at h
    refine ⟨fun h' => absurd h' hdt, ?_⟩
    rw [← h.1]
    simp [hdt]

/-- A controller in the middle of a run: gains 2, 1, 3, setpoint 10, bounds
    `[-50, 50]`, previous measurement 4, accumulated integral 7. -/
def midRun : Controller :=
  { P := some 2, I := some 1, D := some 3, Setpoint := some 10, Min := some (-50),
    Max := some 50, prevProcessVariable := some 4, accumulatedIntegral := some 7,
    initOnce := true }

/-! ## The claims -/

/-- C1: on an initialised controller (gains `kP`, `kI`, `kD`, setpoint `sp`,
    stored previous measurement `prev`, stored integral `acc`), `Accumulate m d`
    returns `clamp (kP * (sp - m) + clamp ((sp - m) * dt * kI + acc) + deriv * kD)`
    with `dt` the whole seconds of `d` and `deriv = -((m - prev) / dt)` when
    `dt > 0`, zero otherwise; `prev` and `acc` are the values stored before the
    call. -/
theorem accumulate_output (p : Controller) (kP kI kD sp prev acc m : ℚ) (d : Int)
    (hP : p.P = some kP) (hI : p.I = some kI) (hD : p.D = some kD)
    (hS : p.Setpoint = some sp) (hprev : p.prevProcessVariable = some prev)
    (hacc : p.accumulatedIntegral = some acc) :
    (p.Accumulate m d).map Prod.fst =
      some (p.enforceRange
        (kP * (sp - m)
          + p.enforceRange ((sp - m) * seconds d * kI + acc)
          + (if seconds d > 0 then -((m - prev) / seconds d) else 0) * kD)) := by
  rw [Accumulate_of_set p kP kI kD sp prev acc m d hP hI hD hS hprev hacc]
  rfl

/-- C1 at `midRun`, measurement 6 after 2.5 s: `dt = 2`, the output is
    `2 * 4 + (4 * 2 * 1 + 7) + (-(2 / 2)) * 3 = 20`. -/
theorem accumulate_output_witness :
    seconds 2500000000 = 2 ∧
    (midRun.Accumulate 6 2500000000).map Prod.fst = some 20 := by
  have hs : seconds 2500000000 = 2 := by
    simp [seconds, Second, Int.tdiv]
  refine ⟨hs, ?_⟩
  rw [accumulate_output midRun 2 1 3 10 4 7 6 2500000000 rfl rfl rfl rfl rfl rfl, hs]
  norm_num [enforceRange_eq, midRun]

/-- C2: on an initialised controller, after `Accumulate m d` the stored
    accumulated integral is `clamp ((sp - m) * dt * kI + acc)` for the integral
    `acc` stored before, the stored previous measurement is `m`, and the stored
    integral is the very value that entered this call's output as the integral
    contribution. -/
theorem accumulate_state (p : Controller) (kP kI kD sp prev acc m : ℚ) (d : Int)
    (hP : p.P = some kP) (hI : p.I = some kI) (hD : p.D = some kD)
    (hS : p.Setpoint = some sp) (hprev : p.prevProcessVariable = some prev)
    (hacc : p.accumulatedIntegral = some acc) :
    ∃ out p' stored, p.Accumulate m d = some (out, p') ∧
      p'.accumulatedIntegral = some stored ∧
      stored = p.enforceRange ((sp - m) * seconds d * kI + acc) ∧
      p'.prevProcessVariable = some m ∧
      out = p.enforceRange
        (kP * (sp - m) + stored
          + (if seconds d > 0 then -((m - prev) / seconds d) else 0) * kD) := by
  rw [Accumulate_of_set p kP kI kD sp prev acc m d hP hI hD hS hprev hacc]
  exact ⟨_, _, _, rfl, rfl, rfl, rfl, rfl⟩

/-- C2 at `midRun`, measurement 6 after 2.5 s: the call stores the integral
    `4 * 2 * 1 + 7 = 15` and the previous measurement 6. -/
theorem accumulate_state_witness :
    ∃ out p', midRun.Accumulate 6 2500000000 = some (out, p') ∧
      p'.accumulatedIntegral = some 15 ∧ p'.prevProcessVariable = some 6 := by
  have hs : seconds 2500000000 = 2 := by
    simp [seconds, Second, Int.tdiv]
  obtain ⟨out, p', stored, h, h1, h2, h3, _⟩ :=
    accumulate_state midRun 2 1 3 10 4 7 6 2500000000 rfl rfl rfl rfl rfl rfl
  refine ⟨out, p', h, ?_, h3⟩
  rw [h1, h2, hs]
  norm_num [enforceRange_eq, midRun]

/-- A freshly constructed controller with gain `P = 100` and bounds `[-50, 50]`;
    every other field is nil and the once-guard has not run. -/
def freshBounded : Controller :=
  { P := some 100, I := none, D := none, Setpoint := none, Min := some (-50),
    Max := some 50, prevProcessVariable := none, accumulatedIntegral := none,
    initOnce := false }

/-- C3: `Accumulate` returns on every ready controller, and whatever the
    controller, a value `out` it returns satisfies `Min ≤ out ≤ Max` when both
    bounds are set with `Min ≤ Max`, `out ≤ Max` when only `Max` is set and
    `Min ≤ out` when only `Min` is set; moreover `out` is the clamp of the
    three-term sum, and with only one bound set it is that sum itself whenever
    the sum respects the bound. -/
theorem accumulate_range (p : Controller) (m : ℚ) (d : Int) :
    (p.Ready → ∃ out p', p.Accumulate m d = some (out, p')) ∧
    ∀ out p', p.Accumulate m d = some (out, p') →
      (∀ mn mx, p.Min = some mn → p.Max = some mx → mn ≤ mx → mn ≤ out ∧ out ≤ mx) ∧
      (∀ mx, p.Min = none → p.Max = some mx → out ≤ mx) ∧
      (∀ mn, p.Min = some mn → p.Max = none → mn ≤ out) ∧
      ∃ kP kI kD sp acc sum,
        p.init.P = some kP ∧ p.init.I = some kI ∧ p.init.D = some kD ∧
        p.init.Setpoint = some sp ∧ p.init.accumulatedIntegral = some acc ∧
        sum = kP * (sp - m) + p.enforceRange ((sp - m) * seconds d * kI + acc)
          + (if seconds d > 0 then
              -((m - p.init.prevProcessVariable.getD 0) / seconds d)
            else 0) * kD ∧
        out = p.enforceRange sum ∧
        (∀ mx, p.Min = none → p.Max = some mx → sum ≤ mx → out = sum) ∧
        (∀ mn, p.Min = some mn → p.Max = none → mn ≤ sum → out = sum) := by
  constructor
  · intro hready
    obtain ⟨out, p', h, -⟩ := hready.accumulate m d
    exact ⟨out, p', h⟩
  · intro out p' h
    obtain ⟨kP, kI, kD, sp, acc, hP, hI, hD, hS, hacc, -, hout⟩ :=
      Accumulate_some p p' m out d h
    refine ⟨?_, ?_, ?_, kP, kI, kD, sp, acc, _, hP, hI, hD, hS, hacc, rfl, hout, ?_, ?_⟩
    · intro mn mx hmin hmax hle
      rw [hout]
      exact enforceRange_mem p _ mn mx hmin hmax hle
    · intro mx hmin hmax
      rw [hout, enforceRange_max_only p _ mx hmin hmax]
      exact min_le_right _ _
    · intro mn hmin hmax
      rw [hout, enforceRange_min_only p _ mn hmin hmax]
      exact le_max_right _ _
    · intro mx hmin hmax hle
      rw [hout, enforceRange_max_only p _ mx hmin hmax]
      exact min_eq_left hle
    · intro mn hmin hmax hle
      rw [hout, enforceRange_min_only p _ mn hmin hmax]
      exact max_eq_left hle

/-- C3 at `freshBounded`, measurement -3 after 1 s: the call returns, and the
    returned value lies in `[-50, 50]` (the unclamped sum is `100 * 3 = 300`). -/
theorem accumulate_range_witness :
    ∃ out p', freshBounded.Accumulate (-3) 1000000000 = some (out, p') ∧
      -50 ≤ out ∧ out ≤ 50 := by
  obtain ⟨out, p', h⟩ := (accumulate_range freshBounded (-3) 1000000000).1 (Or.inl rfl)
  exact ⟨out, p', h,
    ((accumulate_range freshBounded (-3) 1000000000).2 out p' h).1 (-50) 50 rfl rfl
      (by norm_num)⟩

/-- A freshly constructed controller whose bounds are the wrong way round:
    `Min = 1`, `Max = 0`, everything else nil. -/
def inverted : Controller :=
  { P := none, I := none, D := none, Setpoint := none, Min := some 1, Max := some 0,
    prevProcessVariable := none, accumulatedIntegral := none, initOnce := false }

/-- C4 as stated fails: both bounds of `inverted` are set, yet its first call
    (measurement 0, no time elapsed) stores the integral 1, which is above
    `Max = 0`. -/
theorem integral_in_range_counterexample :
    inverted.Min = some 1 ∧ inverted.Max = some 0 ∧
    (inverted.Accumulate 0 0).map (fun r => r.2.accumulatedIntegral) = some (some 1) ∧
    ¬ ((1 : ℚ) ≤ 1 ∧ (1 : ℚ) ≤ 0) := by
  refine ⟨rfl, rfl, ?_, by norm_num⟩
  rw [Accumulate_of_init inverted 0 0 0 0 0 0 0 0 rfl rfl rfl rfl rfl rfl]
  norm_num [enforceRange_eq, inverted]

/-- C4, amended: on a controller with both bounds set and `Min ≤ Max`, every
    non-empty sequence of cycles (any measurements, durations, stored gains and
    setpoints) runs through, leaves the bounds as they were, and leaves a stored
    accumulated integral within `[Min, Max]`. -/
theorem run_integral_in_range (p : Controller) (mn mx : ℚ) (cs : List Cycle)
    (hready : p.Ready) (hmin : p.Min = some mn) (hmax : p.Max = some mx) (hle : mn ≤ mx)
    (hcs : cs ≠ []) :
    ∃ outs p' acc, p.run cs = some (outs, p') ∧ p'.Min = some mn ∧ p'.Max = some mx ∧
      p'.accumulatedIntegral = some acc ∧ mn ≤ acc ∧ acc ≤ mx := by
  induction cs generalizing p with
  | nil => exact absurd rfl hcs
  | cons c cs ih =>
    obtain ⟨out, p1, hacc, hready1, hmin1, hmax1, v, hv⟩ :=
      (hready.retune c).accumulate c.input c.duration
    rw [retune_Min, hmin] at hmin1
    rw [retune_Max, hmax] at hmax1
    cases cs with
    | nil =>
      refine ⟨[out], p1, _, ?_, hmin1, hmax1, hv, ?_⟩
      · simp [run, hacc]
      · exact enforceRange_mem (p.retune c) v mn mx hmin hmax hle
    | cons c' cs' =>
      obtain ⟨outs, p2, acc, hrun, h1, h2, h3, h4⟩ :=
        ih p1 hready1 hmin1 hmax1 (List.cons_ne_nil c' cs')
      refine ⟨out :: outs, p2, acc, ?_, h1, h2, h3, h4⟩
      rw [run, hacc]
      simp only
      rw [hrun]

/-- C4 (amended) at `freshBounded` driven through two cycles that would push an
    unclamped integral to 200: the run returns and the stored integral stays in
    `[-50, 50]`. -/
theorem run_integral_in_range_witness :
    freshBounded.Ready ∧ (-50 : ℚ) ≤ 50 ∧
    ∃ outs p' acc,
      freshBounded.run
        [⟨none, some 1, none, some 100, 0, 1000000000⟩,
         ⟨none, none, none, none, 0, 1000000000⟩] = some (outs, p') ∧
      p'.Min = some (-50) ∧ p'.Max = some 50 ∧
      p'.accumulatedIntegral = some acc ∧ -50 ≤ acc ∧ acc ≤ 50 :=
  ⟨Or.inl rfl, by norm_num,
    run_integral_in_range freshBounded (-50) 50 _ (Or.inl rfl) rfl rfl (by norm_num)
      (List.cons_ne_nil _ _)⟩

/-- A freshly constructed controller with zero gains and the bounds the wrong
    way round: `Min = 5`, `Max = -1`. -/
def invertedZeroGain : Controller :=
  fresh (some 0) (some 0) (some 0) none (some 5) (some (-1))

/-- C5 as stated fails: `invertedZeroGain` has `P = I = D = 0`, its clamp of 0
    is `Max = -1`, yet its first call (measurement 0, no time elapsed) returns
    `Min = 5`. -/
theorem zero_gain_counterexample :
    invertedZeroGain.P = some 0 ∧ invertedZeroGain.I = some 0 ∧
    invertedZeroGain.D = some 0 ∧
    invertedZeroGain.enforceRange 0 = -1 ∧
    (invertedZeroGain.Accumulate 0 0).map Prod.fst = some 5 := by
  refine ⟨rfl, rfl, rfl, ?_, ?_⟩
  · norm_num [enforceRange_eq, invertedZeroGain, fresh]
  · rw [Accumulate_of_init invertedZeroGain 0 0 0 0 0 0 0 0 rfl rfl rfl rfl rfl rfl]
    norm_num [enforceRange_eq, invertedZeroGain, fresh]

/-- C5, amended: a freshly constructed controller with `P = I = D = 0` (given as
    zero, or left nil and so defaulted to zero) and bounds that are each set or
    unset but in order, `Min ≤ Max`, when both are set, returns exactly `clamp 0`
    at every call of every sequence of cycles, whatever the measurements, the
    durations, the initial setpoint and the setpoints stored between calls, as
    long as no cycle stores a non-zero gain. -/
theorem zero_gain_run (kP kI kD sp mn mx : Option ℚ) (cs : List Cycle)
    (hP : kP = none ∨ kP = some 0) (hI : kI = none ∨ kI = some 0)
    (hD : kD = none ∨ kD = some 0)
    (hord : ∀ a b, mn = some a → mx = some b → a ≤ b)
    (hgain : ∀ c ∈ cs, (c.P = none ∨ c.P = some 0) ∧ (c.I = none ∨ c.I = some 0) ∧
      (c.D = none ∨ c.D = some 0)) :
    ∃ p', (fresh kP kI kD sp mn mx).run cs =
      some (List.replicate cs.length ((fresh kP kI kD sp mn mx).enforceRange 0), p') := by
  refine run_zero_gain (fresh kP kI kD sp mn mx) cs 0 (Or.inl rfl) ?_ ?_ ?_ ?_ rfl hord hgain
  · rcases hP with rfl | rfl <;> simp [init_eq, fresh]
  · rcases hI with rfl | rfl <;> simp [init_eq, fresh]
  · rcases hD with rfl | rfl <;> simp [init_eq, fresh]
  · simp [init_eq, fresh]

/-- C5 (amended) with bounds `[2, 9]`, gains left nil, and three cycles that
    change the measurement, the setpoint and the duration: each call returns
    `clamp 0 = 2`. -/
theorem zero_gain_run_witness :
    ∃ p', (fresh none none none (some 7) (some 2) (some 9)).run
        [⟨none, none, none, none, 3, 1000000000⟩,
         ⟨none, none, some 0, some (-4), 100, 0⟩,
         ⟨none, none, none, some 12, -8, -2500000000⟩] = some ([2, 2, 2], p') := by
  have h := zero_gain_run none none none (some 7) (some 2) (some 9)
    [⟨none, none, none, none, 3, 1000000000⟩,
     ⟨none, none, some 0, some (-4), 100, 0⟩,
     ⟨none, none, none, some 12, -8, -2500000000⟩]
    (Or.inl rfl) (Or.inl rfl) (Or.inl rfl)
    (by intro a b ha hb; cases ha; cases hb; norm_num)
    (by simp)
  have hc : (fresh none none none (some 7) (some 2) (some 9)).enforceRange 0 = 2 := by
    norm_num [enforceRange_eq, fresh]
  rw [hc] at h
  exact h

/-- C6: on an initialised controller, when the duration truncates to zero whole
    seconds the derivative contributes nothing: the returned value is
    `clamp (kP * (sp - m) + clamp acc)`, and it is the same for every other
    derivative gain and every other stored previous measurement. -/
theorem accumulate_zero_duration (p : Controller) (kP kI kD sp prev acc m : ℚ) (d : Int)
    (hP : p.P = some kP) (hI : p.I = some kI) (hD : p.D = some kD)
    (hS : p.Setpoint = some sp) (hprev : p.prevProcessVariable = some prev)
    (hacc : p.accumulatedIntegral = some acc)
    (hd : Int.tdiv d 1000000000 = 0) :
    (p.Accumulate m d).map Prod.fst =
        some (p.enforceRange (kP * (sp - m) + p.enforceRange acc)) ∧
      ∀ kD' prev' : ℚ,
        (({ p with D := some kD', prevProcessVariable := some prev' } : Controller).Accumulate
          m d).map Prod.fst = (p.Accumulate m d).map Prod.fst := by
  have hs : seconds d = 0 := by
    simp [seconds, Second, hd]
  have key : ∀ q : Controller, q.P = some kP → q.I = some kI → q.Setpoint = some sp →
      q.accumulatedIntegral = some acc → q.Min = p.Min → q.Max = p.Max →
      ∀ x y : ℚ, q.D = some x → q.prevProcessVariable = some y →
      (q.Accumulate m d).map Prod.fst =
        some (p.enforceRange (kP * (sp - m) + p.enforceRange acc)) := by
    intro q h1 h2 h3 h4 h5 h6 x y h7 h8
    rw [Accumulate_of_set q kP kI x sp y acc m d h1 h2 h7 h3 h8 h4, hs]
    simp only [Option.map_some', mul_zero, zero_mul, zero_add, add_zero, lt_irrefl,
      gt_iff_lt, if_false, enforceRange_congr p q _ h5 h6]
  refine ⟨key p hP hI hS hacc rfl rfl kD prev hD hprev, fun kD' prev' => ?_⟩
  rw [key p hP hI hS hacc rfl rfl kD prev hD hprev]
  exact key _ hP hI hS hacc rfl rfl kD' prev' rfl rfl

/-- C6 at `midRun`, measurement 6 after 999 ms: the output is
    `2 * 4 + 7 = 15`, with no trace of `D = 3` or of the previous measurement. -/
theorem accumulate_zero_duration_witness :
    Int.tdiv 999000000 1000000000 = 0 ∧
    (midRun.Accumulate 6 999000000).map Prod.fst = some 15 := by
  refine ⟨by decide, ?_⟩
  rw [(accumulate_zero_duration midRun 2 1 3 10 4 7 6 999000000 rfl rfl rfl rfl rfl rfl
    (by decide)).1]
  norm_num [enforceRange_eq, midRun]

/-- C7: `enforceRange v` is `Max` if `Max` is set and `v > Max`; otherwise `Min`
    if `Min` is set and `v < Min`; otherwise `v`.  Both tests can succeed
    together only when `Min > Max`, and then the result is `Max`. -/
theorem enforceRange_spec (p : Controller) (v : ℚ) :
    (∀ mx, p.Max = some mx → v > mx → p.enforceRange v = mx) ∧
    (∀ mn, (¬ ∃ mx, p.Max = some mx ∧ v > mx) → p.Min = some mn → v < mn →
      p.enforceRange v = mn) ∧
    ((¬ ∃ mx, p.Max = some mx ∧ v > mx) → (¬ ∃ mn, p.Min = some mn ∧ v < mn) →
      p.enforceRange v = v) ∧
    (∀ mn mx, p.Min = some mn → p.Max = some mx → v > mx → v < mn →
      mn > mx ∧ p.enforceRange v = mx) := by
  have hmax : ∀ mx, p.Max = some mx → v > mx → p.enforceRange v = mx := by
    intro mx hmx hv
    unfold enforceRange
    rw [hmx]
    cases p.Min <;> simp [(ratCmp_pos v mx).mpr hv]
  refine ⟨hmax, ?_, ?_, ?_⟩
  · intro mn hno hmn hv
    unfold enforceRange
    rw [hmn]
    rcases hmx : p.Max with _ | mx
    · simp [(ratCmp_neg v mn).mpr hv]
    · have h1 : ¬ ratCmp v mx > 0 := fun h => hno ⟨mx, hmx, (ratCmp_pos v mx).mp h⟩
      simp only [h1, if_false, (ratCmp_neg v mn).mpr hv, if_true]
  · intro hnomax hnomin
    unfold enforceRange
    rcases hmx : p.Max with _ | mx <;> rcases hmn : p.Min with _ | mn
    · rfl
    · have h2 : ¬ ratCmp v mn < 0 := fun h => hnomin ⟨mn, hmn, (ratCmp_neg v mn).mp h⟩
      simp only [h2, if_false]
    · have h1 : ¬ ratCmp v mx > 0 := fun h => hnomax ⟨mx, hmx, (ratCmp_pos v mx).mp h⟩
      simp only [h1, if_false]
    · have h1 : ¬ ratCmp v mx > 0 := fun h => hnomax ⟨mx, hmx, (ratCmp_pos v mx).mp h⟩
      have h2 : ¬ ratCmp v mn < 0 := fun h => hnomin ⟨mn, hmn, (ratCmp_neg v mn).mp h⟩
      simp only [h1, h2, if_false]
  · intro mn mx _ hmx hv1 hv2
    exact ⟨lt_trans hv1 hv2, hmax mx hmx hv1⟩

/-- C7 at `midRun` (bounds `[-50, 50]`): 51 is cut to 50, -51 is raised to -50,
    and 0 passes unchanged. -/
theorem enforceRange_spec_witness :
    midRun.enforceRange 51 = 50 ∧ midRun.enforceRange (-51) = -50 ∧
    midRun.enforceRange 0 = 0 := by
  refine ⟨(enforceRange_spec midRun 51).1 50 rfl (by norm_num),
    (enforceRange_spec midRun (-51)).2.1 (-50) ?_ rfl (by norm_num),
    (enforceRange_spec midRun 0).2.2.1 ?_ ?_⟩
  · rintro ⟨mx, hmx, hv⟩
    cases hmx
    norm_num at hv
  · rintro ⟨mx, hmx, hv⟩
    cases hmx
    norm_num at hv
  · rintro ⟨mn, hmn, hv⟩
    cases hmn
    norm_num at hv

/-- C8: `Accumulate` reads the duration only through its whole seconds, the
    nanosecond count divided by `10^9` and truncated toward zero: two durations
    with the same whole seconds give the same output and the same controller.
    So 1999 ms acts as 1 s, 999 ms and -999 ms act as 0 s, and -1999 ms acts as
    -1 s. -/
theorem accumulate_whole_seconds (p : Controller) (m : ℚ) :
    (∀ d : Int, seconds d = ((Int.tdiv d 1000000000 : Int) : ℚ)) ∧
    (∀ d1 d2 : Int, Int.tdiv d1 1000000000 = Int.tdiv d2 1000000000 →
      p.Accumulate m d1 = p.Accumulate m d2) ∧
    (seconds 1999000000 = 1 ∧ p.Accumulate m 1999000000 = p.Accumulate m 1000000000) ∧
    (seconds 999000000 = 0 ∧ p.Accumulate m 999000000 = p.Accumulate m 0) ∧
    (seconds (-999000000) = 0 ∧ p.Accumulate m (-999000000) = p.Accumulate m 0) ∧
    (seconds (-1999000000) = -1 ∧
      p.Accumulate m (-1999000000) = p.Accumulate m (-1000000000)) := by
  have key : ∀ d1 d2 : Int, Int.tdiv d1 1000000000 = Int.tdiv d2 1000000000 →
      p.Accumulate m d1 = p.Accumulate m d2 := by
    intro d1 d2 h
    have hs : seconds d1 = seconds d2 := by
      unfold seconds Second
      rw [h]
    simp only [Accumulate, hs]
  refine ⟨fun d => rfl, key, ⟨?_, key _ _ (by decide)⟩, ⟨?_, key _ _ (by decide)⟩,
    ⟨?_, key _ _ (by decide)⟩, ⟨?_, key _ _ (by decide)⟩⟩
  · have h : Int.tdiv 1999000000 Second = 1 := by decide
    simp [seconds, h]
  · have h : Int.tdiv 999000000 Second = 0 := by decide
    simp [seconds, h]
  · have h : Int.tdiv (-999000000) Second = 0 := by decide
    simp [seconds, h]
  · have h : Int.tdiv (-1999000000) Second = -1 := by decide
    simp [seconds, h]

/-- C8 at `midRun` with 2.5 s and 2.000000001 s, both two whole seconds. -/
theorem accumulate_whole_seconds_witness :
    midRun.Accumulate 6 2500000000 = midRun.Accumulate 6 2000000001 :=
  (accumulate_whole_seconds midRun 6).2.1 2500000000 2000000001 (by decide)

/-- C9: on a controller whose once-guard has not run, `init` gives each nil
    field among `P`, `I`, `D`, `Setpoint`, the previous measurement and the
    accumulated integral the value zero, leaves each of them that is set as it
    is, and leaves `Min` and `Max` as they were, nil included. -/
theorem init_defaults (p : Controller) (h : p.initOnce = false) :
    ((p.P = none → p.init.P = some 0) ∧ (∀ x, p.P = some x → p.init.P = some x)) ∧
    ((p.I = none → p.init.I = some 0) ∧ (∀ x, p.I = some x → p.init.I = some x)) ∧
    ((p.D = none → p.init.D = some 0) ∧ (∀ x, p.D = some x → p.init.D = some x)) ∧
    ((p.Setpoint = none → p.init.Setpoint = some 0) ∧
      (∀ x, p.Setpoint = some x → p.init.Setpoint = some x)) ∧
    ((p.prevProcessVariable = none → p.init.prevProcessVariable = some 0) ∧
      (∀ x, p.prevProcessVariable = some x → p.init.prevProcessVariable = some x)) ∧
    ((p.accumulatedIntegral = none → p.init.accumulatedIntegral = some 0) ∧
      (∀ x, p.accumulatedIntegral = some x → p.init.accumulatedIntegral = some x)) ∧
    p.init.Min = p.Min ∧ p.init.Max = p.Max := by
  have hi := init_eq p
  simp only [h, Bool.false_eq_true, if_false] at hi
  rw [hi]
  refine ⟨⟨?_, ?_⟩, ⟨?_, ?_⟩, ⟨?_, ?_⟩, ⟨?_, ?_⟩, ⟨?_, ?_⟩, ⟨?_, ?_⟩, rfl, rfl⟩
  all_goals
    intros
    simp_all

/-- C9 at `freshBounded`: the gain 100 and the bounds stay, the nil integral
    gain and the nil integral become zero. -/
theorem init_defaults_witness :
    freshBounded.initOnce = false ∧
    freshBounded.init.P = some 100 ∧ freshBounded.init.I = some 0 ∧
    freshBounded.init.accumulatedIntegral = some 0 ∧
    freshBounded.init.Min = some (-50) ∧ freshBounded.init.Max = some 50 :=
  have h := init_defaults freshBounded rfl
  ⟨rfl, h.1.2 100 rfl, h.2.1.1 rfl, h.2.2.2.2.2.1.1 rfl, h.2.2.2.2.2.2.1, h.2.2.2.2.2.2.2⟩

/-- C10: `init` is idempotent, and `Accumulate` on a controller that was
    initialised beforehand returns the same output and leaves the same
    controller as `Accumulate` on the controller as it was. -/
theorem init_idempotent (p : Controller) (m : ℚ) (d : Int) :
    p.init.init = p.init ∧ p.init.Accumulate m d = p.Accumulate m d := by
  have h : p.init.init = p.init := init_of_once p.init (init_initOnce p)
  refine ⟨h, ?_⟩
  simp only [Accumulate, h]

/-! ## Runs from a freshly constructed controller -/

theorem init_fresh (P I D S mn mx : Option ℚ) :
    (fresh P I D S mn mx).init =
      settled (P.getD 0) (I.getD 0) (D.getD 0) (S.getD 0) mn mx 0 0 := by
  rw [init_eq]
  rfl

theorem init_settled (kP kI kD sp : ℚ) (mn mx : Option ℚ) (prev acc : ℚ) :
    (settled kP kI kD sp mn mx prev acc).init = settled kP kI kD sp mn mx prev acc :=
  init_of_once _ rfl

/-- The first call on a fresh controller is a call on the controller `init`
    makes of it. -/
theorem Accumulate_fresh (P I D S mn mx : Option ℚ) (m : ℚ) (d : Int) :
    (fresh P I D S mn mx).Accumulate m d =
      (settled (P.getD 0) (I.getD 0) (D.getD 0) (S.getD 0) mn mx 0 0).Accumulate m d := by
  simp only [Accumulate, init_fresh, init_settled]

/-- A call on a settled controller, in closed form. -/
theorem Accumulate_settled (kP kI kD sp : ℚ) (mn mx : Option ℚ) (prev acc m : ℚ) (d : Int) :
    (settled kP kI kD sp mn mx prev acc).Accumulate m d =
      some ((settled kP kI kD sp mn mx prev acc).enforceRange
              (kP * (sp - m)
                + (settled kP kI kD sp mn mx prev acc).enforceRange
                    ((sp - m) * seconds d * kI + acc)
                + (if seconds d > 0 then -((m - prev) / seconds d) else 0) * kD),
            settled kP kI kD sp mn mx m
              ((settled kP kI kD sp mn mx prev acc).enforceRange
                ((sp - m) * seconds d * kI + acc))) :=
  Accumulate_of_set _ kP kI kD sp prev acc m d rfl rfl rfl rfl rfl rfl

theorem enforceRange_settled_unbounded (kP kI kD sp prev acc v : ℚ) :
    (settled kP kI kD sp none none prev acc).enforceRange v = v :=
  enforceRange_unbounded _ v rfl rfl

/-- The stores of a cycle on a settled controller. -/
theorem retune_settled (kP kI kD sp : ℚ) (mn mx : Option ℚ) (prev acc : ℚ) (c : Cycle) :
    (settled kP kI kD sp mn mx prev acc).retune c =
      settled (c.P.getD kP) (c.I.getD kI) (c.D.getD kD) (c.Setpoint.getD sp) mn mx prev acc := by
  rcases c with ⟨_ | a, _ | b, _ | e, _ | f, m, d⟩ <;> rfl

/-- A non-empty run from a fresh controller is the same run from the controller
    `init` makes of it. -/
theorem run_fresh_cons (P I D S mn mx : Option ℚ) (c : Cycle) (cs : List Cycle) :
    (fresh P I D S mn mx).run (c :: cs) =
      (settled (P.getD 0) (I.getD 0) (D.getD 0) (S.getD 0) mn mx 0 0).run (c :: cs) := by
  have h : (fresh P I D S mn mx).retune c =
      fresh (assign c.P P) (assign c.I I) (assign c.D D) (assign c.Setpoint S) mn mx := rfl
  have e : ∀ new old : Option ℚ, (assign new old).getD 0 = new.getD (old.getD 0) := by
    intro new old
    cases new <;> rfl
  rw [run, run, h, Accumulate_fresh, retune_settled, e, e, e, e]

/-- One cycle that stores no gain, on a settled controller without bounds. -/
theorem step_unbounded (kP kI kD sp prev acc : ℚ) (c : Cycle)
    (hP : c.P = none) (hI : c.I = none) (hD : c.D = none) :
    ((settled kP kI kD sp none none prev acc).retune c).Accumulate c.input c.duration =
      some (kP * (c.Setpoint.getD sp - c.input)
              + ((c.Setpoint.getD sp - c.input) * seconds c.duration * kI + acc)
              + (if seconds c.duration > 0 then -((c.input - prev) / seconds c.duration)
                  else 0) * kD,
            settled kP kI kD (c.Setpoint.getD sp) none none c.input
              ((c.Setpoint.getD sp - c.input) * seconds c.duration * kI + acc)) := by
  rw [retune_settled, hP, hI, hD, Accumulate_settled]
  simp only [enforceRange_settled_unbounded, Option.getD_none]

/-- Unfolding a run by its first cycle, when that cycle's call returns. -/
theorem run_cons_of_step (p p1 : Controller) (out : ℚ) (c : Cycle) (cs : List Cycle)
    (h : (p.retune c).Accumulate c.input c.duration = some (out, p1)) :
    p.run (c :: cs) = (p1.run cs).map (fun r => (out :: r.1, r.2)) := by
  rw [run, h]
  simp only
  cases hrun : p1.run cs with
  | none => rfl
  | some r => rfl

/-- Proportional-only runs on a settled controller without bounds. -/
theorem run_proportional (kP sp prev : ℚ) (cs : List Cycle)
    (hgain : ∀ c ∈ cs, c.P = none ∧ c.I = none ∧ c.D = none) :
    ∃ p', (settled kP 0 0 sp none none prev 0).run cs =
      some (List.zipWith (fun s c => kP * (s - c.input)) (setpoints sp cs) cs, p') := by
  induction cs generalizing sp prev with
  | nil => exact ⟨_, rfl⟩
  | cons c cs ih =>
    obtain ⟨hP, hI, hD⟩ := hgain c (List.mem_cons_self c cs)
    have hstep := step_unbounded kP 0 0 sp prev 0 c hP hI hD
    simp only [mul_zero, add_zero] at hstep
    obtain ⟨p', hrun⟩ := ih (c.Setpoint.getD sp) c.input
      (fun c' hc' => hgain c' (List.mem_cons_of_mem c hc'))
    refine ⟨p', ?_⟩
    rw [run_cons_of_step _ _ _ c cs hstep, hrun]
    rfl

/-- Derivative-only runs on a settled controller without bounds, every duration
    a whole second or more. -/
theorem run_derivative (kD sp prev : ℚ) (cs : List Cycle)
    (hgain : ∀ c ∈ cs, c.P = none ∧ c.I = none ∧ c.D = none)
    (hdt : ∀ c ∈ cs, Int.tdiv c.duration 1000000000 ≥ 1) :
    ∃ p', (settled 0 0 kD sp none none prev 0).run cs =
      some (List.zipWith (fun before c => -kD * (c.input - before) / seconds c.duration)
        (prev :: cs.map (fun c => c.input)) cs, p') := by
  induction cs generalizing sp prev with
  | nil => exact ⟨_, rfl⟩
  | cons c cs ih =>
    obtain ⟨hP, hI, hD⟩ := hgain c (List.mem_cons_self c cs)
    have hpos : seconds c.duration > 0 := by
      have h1 := hdt c (List.mem_cons_self c cs)
      have h2 : (1 : ℚ) ≤ seconds c.duration := by
        unfold seconds Second
        exact_mod_cast h1
      linarith
    have hstep := step_unbounded 0 0 kD sp prev 0 c hP hI hD
    simp only [mul_zero, zero_mul, add_zero, zero_add, hpos, if_true] at hstep
    obtain ⟨p', hrun⟩ := ih (c.Setpoint.getD sp) c.input
      (fun c' hc' => hgain c' (List.mem_cons_of_mem c hc'))
      (fun c' hc' => hdt c' (List.mem_cons_of_mem c hc'))
    refine ⟨p', ?_⟩
    rw [run_cons_of_step _ _ _ c cs hstep, hrun]
    simp only [Option.map_some', List.map_cons, List.zipWith_cons_cons]
    have e : -((c.input - prev) / seconds c.duration) * kD =
        -kD * (c.input - prev) / seconds c.duration := by
      ring
    rw [e]

theorem setpoints_cons (sp : ℚ) (c : Cycle) (cs : List Cycle) :
    setpoints sp (c :: cs) = c.Setpoint.getD sp :: setpoints (c.Setpoint.getD sp) cs := rfl

/-- Integral-only runs on a settled controller without bounds: the `k`-th call
    returns the integral stored before the run plus `kI` times the sum of the
    first `k` increments. -/
theorem run_integral (kI sp prev acc : ℚ) (cs : List Cycle)
    (hgain : ∀ c ∈ cs, c.P = none ∧ c.I = none ∧ c.D = none) :
    ∃ outs p', (settled 0 kI 0 sp none none prev acc).run cs = some (outs, p') ∧
      outs.length = cs.length ∧
      ∀ k < cs.length, outs[k]? = some (acc + kI *
        ((List.zipWith (fun s c => (s - c.input) * seconds c.duration)
          (setpoints sp cs) cs).take (k + 1)).sum) := by
  induction cs generalizing sp prev acc with
  | nil => exact ⟨[], _, rfl, rfl, fun k hk => absurd hk (Nat.not_lt_zero k)⟩
  | cons c cs ih =>
    obtain ⟨hP, hI, hD⟩ := hgain c (List.mem_cons_self c cs)
    have hstep := step_unbounded 0 kI 0 sp prev acc c hP hI hD
    simp only [mul_zero, zero_mul, add_zero, zero_add] at hstep
    obtain ⟨outs, p', hrun, hlen, hk⟩ := ih (c.Setpoint.getD sp) c.input
      ((c.Setpoint.getD sp - c.input) * seconds c.duration * kI + acc)
      (fun c' hc' => hgain c' (List.mem_cons_of_mem c hc'))
    refine ⟨((c.Setpoint.getD sp - c.input) * seconds c.duration * kI + acc) :: outs, p',
      ?_, ?_, ?_⟩
    · rw [run_cons_of_step _ _ _ c cs hstep, hrun]
      rfl
    · simp [hlen]
    · intro k hlt
      cases k with
      | zero =>
        simp only [setpoints_cons, List.zipWith_cons_cons, List.take_succ_cons, List.take_zero,
          List.sum_cons, List.sum_nil, List.getElem?_cons_zero]
        congr 1
        ring
      | succ k =>
        have hlt' : k < cs.length := by simpa using hlt
        rw [List.getElem?_cons_succ, hk k hlt']
        simp only [setpoints_cons, List.zipWith_cons_cons, List.take_succ_cons, List.sum_cons]
        congr 1
        ring

/-- With the bounds in order whenever both are set, `enforceRange` is
    monotone. -/
theorem enforceRange_mono (p : Controller) (v w : ℚ)
    (hord : ∀ mn mx, p.Min = some mn → p.Max = some mx → mn ≤ mx) (hvw : v ≤ w) :
    p.enforceRange v ≤ p.enforceRange w := by
  rcases hmx : p.Max with _ | mx <;> rcases hmn : p.Min with _ | mn
  · rw [enforceRange_unbounded p _ hmn hmx, enforceRange_unbounded p _ hmn hmx]
    exact hvw
  · rw [enforceRange_min_only p _ mn hmn hmx, enforceRange_min_only p _ mn hmn hmx]
    exact max_le_max hvw (le_refl mn)
  · rw [enforceRange_max_only p _ mx hmn hmx, enforceRange_max_only p _ mx hmn hmx]
    exact min_le_min hvw (le_refl mx)
  · have hle := hord mn mx hmn hmx
    rw [enforceRange_eq, enforceRange_eq, hmx, hmn]
    simp only
    split_ifs <;> linarith

/-- With both bounds set and `Min > Max`, `enforceRange` returns `Max` above
    `Max` and `Min` everywhere else. -/
theorem enforceRange_inverted (p : Controller) (v mn mx : ℚ)
    (hmin : p.Min = some mn) (hmax : p.Max = some mx) (hgt : mn > mx) :
    p.enforceRange v = if v > mx then mx else mn := by
  rw [enforceRange_eq, hmax, hmin]
  simp only
  split_ifs with h1 h2
  · rfl
  · rfl
  · exact absurd (lt_of_le_of_lt (not_lt.mp h1) hgt) h2

/-- Whenever `Accumulate` returns, the integral it leaves stored is a value of
    `enforceRange`, and so is its output. -/
theorem Accumulate_some_clamped (p p' : Controller) (v out : ℚ) (duration : Int)
    (h : p.Accumulate v duration = some (out, p')) :
    (∃ w, out = p.enforceRange w) ∧ ∃ w, p'.accumulatedIntegral = some (p.enforceRange w) := by
  obtain ⟨kP, kI, kD, sp, acc, hP, hI, hD, hS, hacc, hprev, hout⟩ :=
    Accumulate_some p p' v out duration h
  refine ⟨⟨_, hout⟩, ?_⟩
  rcases hpv : p.init.prevProcessVariable with _ | prev
  · have hdt : ¬ seconds duration > 0 := fun hpos => hprev hpos hpv
    have e : ∀ (q : Controller) (x : ℚ), q.Min = p.Min → q.Max = p.Max →
        q.enforceRange x = p.enforceRange x := fun q x h1 h2 => enforceRange_congr p q x h1 h2
    unfold Accumulate at h
    simp [hS, hP, hI, hacc, hD, ratCmp_pos, ratZero, hdt, e, init_Min, init_Max] at h
    rw [← h.2]
    exact ⟨_, rfl⟩
  · rw [Accumulate_of_init p kP kI kD sp prev acc v duration hP hI hD hS hpv hacc] at h
    simp only [Option.some.injEq, Prod.mk.injEq] at h
    rw [← h.2]
    exact ⟨_, rfl⟩

/-! ## The claims, continued -/

/-- A controller on which the once-guard has run and whose gain `P` the caller
    has set back to nil afterwards (`P` is an exported field). -/
def unsetAfterInit : Controller :=
  { P := none, I := some 0, D := some 0, Setpoint := some 0, Min := none, Max := none,
    prevProcessVariable := some 0, accumulatedIntegral := some 0, initOnce := true }

/-- C11 as stated fails: on `unsetAfterInit` the once-guard has already run, so
    `init` leaves the nil gain `P` as it is and the call panics on it. -/
theorem accumulate_total_counterexample :
    unsetAfterInit.init = unsetAfterInit ∧ unsetAfterInit.Accumulate 0 0 = none := by
  refine ⟨rfl, ?_⟩
  simp [Accumulate, unsetAfterInit, init]

/-- C11, amended: on every controller that is ready (the once-guard has not run
    yet, or the six numeric fields are all set), whatever the bounds, `Min > Max`
    included, `Accumulate` returns an output and a new controller on which the
    once-guard has run and the six numeric fields are all set (so it is ready
    again), for every measurement and every duration; a division by zero would
    panic (`ratQuo x 0 = none`), so none is evaluated, and when no whole second
    has elapsed the previous measurement, the numerator of the only division,
    is not even read. -/
theorem accumulate_total (p : Controller) (m : ℚ) (d : Int) (hready : p.Ready) :
    (∃ out p', p.Accumulate m d = some (out, p') ∧ p'.Ready ∧ p'.initOnce = true ∧
      (∃ kP kI kD sp acc, p'.P = some kP ∧ p'.I = some kI ∧ p'.D = some kD ∧
        p'.Setpoint = some sp ∧ p'.prevProcessVariable = some m ∧
        p'.accumulatedIntegral = some acc)) ∧
    (∀ x : ℚ, ratQuo x 0 = none) ∧
    (seconds d ≤ 0 → ∀ prev : Option ℚ,
      ({ p.init with prevProcessVariable := prev } : Controller).Accumulate m d =
        p.Accumulate m d) := by
  refine ⟨?_, fun x => by simp [ratQuo], ?_⟩
  · obtain ⟨kP, kI, kD, sp, prev, acc, hP, hI, hD, hS, hprev, hacc⟩ := hready.init_fields
    rw [Accumulate_of_init p kP kI kD sp prev acc m d hP hI hD hS hprev hacc]
    refine ⟨_, _, rfl, Or.inr ?_, init_initOnce p, kP, kI, kD, sp, _, hP, hI, hD, hS, rfl, rfl⟩
    simp [hP, hI, hD, hS]
  · intro hdt prev
    have hi : ({ p.init with prevProcessVariable := prev } : Controller).init =
        { p.init with prevProcessVariable := prev } := init_of_once _ (init_initOnce p)
    have hneg : ¬ ratCmp (seconds d) ratZero > 0 := by
      rw [ratCmp_pos]
      exact not_lt.mpr hdt
    simp only [Accumulate, hi, hneg, if_false]

/-- A freshly constructed controller with `Min = 3 > Max = -3`. -/
def freshInverted : Controller :=
  fresh (some 1) (some 1) (some 1) (some 1) (some 3) (some (-3))

/-- C11 (amended) at `freshInverted`, with no time elapsed: the call returns
    and leaves the once-guard run and the six numeric fields set. -/
theorem accumulate_total_witness :
    freshInverted.Ready ∧
    ∃ out p', freshInverted.Accumulate 5 0 = some (out, p') ∧ p'.Ready ∧
      p'.initOnce = true ∧
      (∃ kP kI kD sp acc, p'.P = some kP ∧ p'.I = some kI ∧ p'.D = some kD ∧
        p'.Setpoint = some sp ∧ p'.prevProcessVariable = some 5 ∧
        p'.accumulatedIntegral = some acc) :=
  ⟨Or.inl rfl, (accumulate_total freshInverted 5 0 (Or.inl rfl)).1⟩

/-- C13: on a freshly constructed controller with `P = D = 0`, integral gain
    `kI` and no bounds, driven through any sequence of cycles that store no gain,
    every call returns, and the `k`-th call returns `kI` times the sum over the
    calls so far of `(s_i - m_i) * dt_i`, with `s_i` the setpoint in force at
    call `i`: the integral is never reset between calls. -/
theorem integral_never_reset (kI : ℚ) (sp : Option ℚ) (cs : List Cycle)
    (hgain : ∀ c ∈ cs, c.P = none ∧ c.I = none ∧ c.D = none) :
    ∃ outs p', (fresh (some 0) (some kI) (some 0) sp none none).run cs = some (outs, p') ∧
      outs.length = cs.length ∧
      ∀ k < cs.length, outs[k]? = some (kI *
        ((List.zipWith (fun s c => (s - c.input) * seconds c.duration)
          (setpoints (sp.getD 0) cs) cs).take (k + 1)).sum) := by
  cases cs with
  | nil => exact ⟨[], _, rfl, rfl, fun k hk => absurd hk (Nat.not_lt_zero k)⟩
  | cons c cs =>
    obtain ⟨outs, p', hrun, hlen, hk⟩ := run_integral kI (sp.getD 0) 0 0 (c :: cs) hgain
    refine ⟨outs, p', ?_, hlen, ?_⟩
    · rw [run_fresh_cons]
      exact hrun
    · intro k hlt
      rw [hk k hlt, zero_add]

/-- C13 with `I = 1`, setpoint 10 and two calls with measurement 0 after 1 s
    each: the calls return 10 and then 20. -/
theorem integral_never_reset_witness :
    ∃ p', (fresh (some 0) (some 1) (some 0) (some 10) none none).run
        [⟨none, none, none, none, 0, 1000000000⟩,
         ⟨none, none, none, none, 0, 1000000000⟩] = some ([10, 20], p') := by
  obtain ⟨outs, p', hrun, hlen, hk⟩ := integral_never_reset 1 (some 10)
    [⟨none, none, none, none, 0, 1000000000⟩, ⟨none, none, none, none, 0, 1000000000⟩]
    (by simp)
  have hs : seconds 1000000000 = 1 := by
    simp [seconds, Second, Int.tdiv]
  have h0 := hk 0 (by simp)
  have h1 := hk 1 (by simp)
  simp only [setpoints, List.zipWith_cons_cons, List.zipWith_nil_right, Option.getD_some,
    Option.getD_none, hs] at h0 h1
  norm_num at h0 h1
  refine ⟨p', ?_⟩
  rw [hrun]
  match outs, hlen, h0, h1 with
  | [a, b], _, h0, h1 =>
    simp only [List.getElem?_cons_zero, List.getElem?_cons_succ, Option.some.injEq] at h0 h1
    rw [h0, h1]

/-- C14: on a controller with `P = D = 0`, `Max` set and `Min` unset, a call
    whose raw integral sum `(sp - m) * dt * kI + acc` exceeds `Max` stores exactly
    `Max` as the accumulated integral and returns exactly `Max`. -/
theorem integral_saturates (p : Controller) (kI sp prev acc mx m : ℚ) (d : Int)
    (hP : p.init.P = some 0) (hI : p.init.I = some kI) (hD : p.init.D = some 0)
    (hS : p.init.Setpoint = some sp) (hprev : p.init.prevProcessVariable = some prev)
    (hacc : p.init.accumulatedIntegral = some acc)
    (hmin : p.Min = none) (hmax : p.Max = some mx)
    (hraw : (sp - m) * seconds d * kI + acc > mx) :
    ∃ p', p.Accumulate m d = some (mx, p') ∧ p'.accumulatedIntegral = some mx := by
  have h1 : p.enforceRange ((sp - m) * seconds d * kI + acc) = mx := by
    rw [enforceRange_max_only p _ mx hmin hmax]
    exact min_eq_right hraw.le
  have h2 : p.enforceRange mx = mx := by
    rw [enforceRange_max_only p _ mx hmin hmax]
    exact min_self mx
  rw [Accumulate_of_init p 0 kI 0 sp prev acc m d hP hI hD hS hprev hacc, h1]
  simp only [zero_mul, mul_zero, zero_add, add_zero, h2]
  exact ⟨_, rfl, rfl⟩

/-- C14 with `I = 1`, setpoint 10 and `Max = 15`, measurement 0 after 1 s per
    call: the first call leaves the integral 10, and the second call, whose raw
    sum is 20, stores 15 and returns 15. -/
theorem integral_saturates_witness :
    (fresh (some 0) (some 1) (some 0) (some 10) none (some 15)).Accumulate 0 1000000000 =
      some (10, settled 0 1 0 10 none (some 15) 0 10) ∧
    ∃ p', (settled 0 1 0 10 none (some 15) 0 10).Accumulate 0 1000000000 = some (15, p') ∧
      p'.accumulatedIntegral = some 15 := by
  have hs : seconds 1000000000 = 1 := by
    simp [seconds, Second, Int.tdiv]
  constructor
  · rw [Accumulate_fresh]
    simp only [Option.getD_some]
    rw [Accumulate_settled, hs]
    norm_num [enforceRange_eq, settled]
  · exact integral_saturates (settled 0 1 0 10 none (some 15) 0 10) 1 10 0 10 15 0 1000000000
      rfl rfl rfl rfl rfl rfl rfl rfl (by rw [hs]; norm_num)

/-- Derivative threading for a caller that hands every call a rational of its
    own (`run`): on a freshly constructed controller with `P = I = 0`,
    derivative gain `kD` and no bounds, driven through any sequence of cycles
    that store no gain and whose durations are all one whole second or more,
    every call returns; the first returns `-kD * (m_1 - 0) / dt_1` and each later
    one `-kD * (m_k - m_(k-1)) / dt_k`, with `m_(k-1)` the measurement of the call
    just before. -/
theorem derivative_threads (kD : ℚ) (sp : Option ℚ) (cs : List Cycle)
    (hgain : ∀ c ∈ cs, c.P = none ∧ c.I = none ∧ c.D = none)
    (hdt : ∀ c ∈ cs, Int.tdiv c.duration 1000000000 ≥ 1) :
    ∃ p', (fresh (some 0) (some 0) (some kD) sp none none).run cs =
      some (List.zipWith (fun before c => -kD * (c.input - before) / seconds c.duration)
        (0 :: cs.map (fun c => c.input)) cs, p') := by
  cases cs with
  | nil => exact ⟨_, rfl⟩
  | cons c cs =>
    obtain ⟨p', hrun⟩ := run_derivative kD (sp.getD 0) 0 (c :: cs) hgain hdt
    exact ⟨p', by rw [run_fresh_cons]; exact hrun⟩

/-- Derivative threading with `D = 1`, setpoint 0 and the measurements 0 and
    then 5 after 1 s each, every call with a rational of its own: the calls
    return 0 and then -5. -/
theorem derivative_threads_witness :
    ∃ p', (fresh (some 0) (some 0) (some 1) (some 0) none none).run
        [⟨none, none, none, none, 0, 1000000000⟩,
         ⟨none, none, none, none, 5, 1000000000⟩] = some ([0, -5], p') := by
  obtain ⟨p', hrun⟩ := derivative_threads 1 (some 0)
    [⟨none, none, none, none, 0, 1000000000⟩, ⟨none, none, none, none, 5, 1000000000⟩]
    (by simp) (by simp)
  have hs : seconds 1000000000 = 1 := by
    simp [seconds, Second, Int.tdiv]
  refine ⟨p', ?_⟩
  rw [hrun]
  simp only [List.map_cons, List.map_nil, List.zipWith_cons_cons, List.zipWith_nil_right, hs]
  norm_num

/-- One call of a caller that has overwritten the rational the controller
    holds as its previous measurement (`runShared`): the derivative term is
    zero, whatever the measurement and the duration. -/
theorem step_shared (kD sp prev : ℚ) (c : Cycle)
    (hP : c.P = none) (hI : c.I = none) (hD : c.D = none) :
    ((({ settled 0 0 kD sp none none prev 0 with
          prevProcessVariable := some c.input } : Controller).retune c).Accumulate
        c.input c.duration) =
      some (0, settled 0 0 kD (c.Setpoint.getD sp) none none c.input 0) := by
  have h : ({ settled 0 0 kD sp none none prev 0 with
      prevProcessVariable := some c.input } : Controller) =
      settled 0 0 kD sp none none c.input 0 := rfl
  rw [h, step_unbounded 0 0 kD sp c.input 0 c hP hI hD]
  simp

/-- Derivative-only runs of a caller that reuses one rational, once the
    controller holds it: every call returns zero. -/
theorem runShared_derivative (kD sp prev : ℚ) (cs : List Cycle)
    (hgain : ∀ c ∈ cs, c.P = none ∧ c.I = none ∧ c.D = none) :
    ∃ p', (settled 0 0 kD sp none none prev 0).runShared true cs =
      some (List.replicate cs.length 0, p') := by
  induction cs generalizing sp prev with
  | nil => exact ⟨_, rfl⟩
  | cons c cs ih =>
    obtain ⟨hP, hI, hD⟩ := hgain c (List.mem_cons_self c cs)
    obtain ⟨p', hrun⟩ := ih (c.Setpoint.getD sp) c.input
      (fun c' hc' => hgain c' (List.mem_cons_of_mem c hc'))
    refine ⟨p', ?_⟩
    rw [runShared]
    simp only [if_true]
    rw [step_shared kD sp prev c hP hI hD]
    simp only
    rw [hrun]
    rfl

/-- C15 fails on the code for a caller that reuses one rational: on a freshly
    constructed controller with `P = I = 0`, `D = 1`, setpoint 0 and no bounds,
    the caller sets its rational to 0 and calls with 1 s, then sets the same
    rational to 5 and calls with 1 s.  The second call subtracts the rational
    from itself and returns 0, where the claim gives `-1 * (5 - 0) / 1 = -5`. -/
theorem derivative_shared_rational :
    (fresh (some 0) (some 0) (some 1) (some 0) none none).runShared false
        [⟨none, none, none, none, 0, 1000000000⟩,
         ⟨none, none, none, none, 5, 1000000000⟩] =
      some ([0, 0], settled 0 0 1 0 none none 5 0) ∧
    -(1 : ℚ) * (5 - 0) / seconds 1000000000 = -5 := by
  have hs : seconds 1000000000 = 1 := by
    simp [seconds, Second, Int.tdiv]
  have h1 : ((fresh (some 0) (some 0) (some 1) (some 0) none none).retune
      ⟨none, none, none, none, 0, 1000000000⟩).Accumulate 0 1000000000 =
      some (0, settled 0 0 1 0 none none 0 0) := by
    have e : (fresh (some 0) (some 0) (some 1) (some 0) none none).retune
        ⟨none, none, none, none, 0, 1000000000⟩ =
        fresh (some 0) (some 0) (some 1) (some 0) none none := rfl
    rw [e, Accumulate_fresh]
    simp only [Option.getD_some]
    rw [Accumulate_settled, hs]
    simp [enforceRange_settled_unbounded]
  have h2 := step_shared 1 0 0 ⟨none, none, none, none, 5, 1000000000⟩ rfl rfl rfl
  simp only [Option.getD_none] at h2
  refine ⟨?_, by rw [hs]; norm_num⟩
  rw [runShared]
  simp only [Bool.false_eq_true, if_false]
  rw [h1]
  simp only
  rw [runShared]
  simp only [if_true]
  rw [h2]
  rfl

/-- C16: on a freshly constructed controller with `I = D = 0`, proportional
    gain `kP` and no bounds, driven through any sequence of cycles that store no
    gain, every call returns exactly `kP * (s - m)` for its own measurement `m`
    and the setpoint `s` in force, whatever its duration and the calls before. -/
theorem proportional_only (kP : ℚ) (sp : Option ℚ) (cs : List Cycle)
    (hgain : ∀ c ∈ cs, c.P = none ∧ c.I = none ∧ c.D = none) :
    ∃ p', (fresh (some kP) (some 0) (some 0) sp none none).run cs =
      some (List.zipWith (fun s c => kP * (s - c.input)) (setpoints (sp.getD 0) cs) cs, p') := by
  cases cs with
  | nil => exact ⟨_, rfl⟩
  | cons c cs =>
    obtain ⟨p', hrun⟩ := run_proportional kP (sp.getD 0) 0 (c :: cs) hgain
    exact ⟨p', by rw [run_fresh_cons]; exact hrun⟩

/-- C16 with `P = 1`, setpoint 0, measurement 5 after 1 s: the call returns -5. -/
theorem proportional_only_witness :
    ∃ p', (fresh (some 1) (some 0) (some 0) (some 0) none none).run
        [⟨none, none, none, none, 5, 1000000000⟩] = some ([-5], p') := by
  obtain ⟨p', hrun⟩ := proportional_only 1 (some 0) [⟨none, none, none, none, 5, 1000000000⟩]
    (by simp)
  refine ⟨p', ?_⟩
  rw [hrun]
  simp only [setpoints, List.zipWith_cons_cons, List.zipWith_nil_right, Option.getD_some,
    Option.getD_none]
  norm_num

/-- C17: when the duration truncates to `-1` whole seconds or fewer, the
    derivative contributes nothing, whatever `D` and the previous measurement
    are, while the integral runs with the negative `dt`: the call stores
    `clamp ((sp - m) * dt * kI + acc)` and returns
    `clamp (kP * (sp - m) + clamp ((sp - m) * dt * kI + acc))`. -/
theorem accumulate_negative_duration (p : Controller) (kP kI kD sp prev acc m : ℚ) (d : Int)
    (hP : p.init.P = some kP) (hI : p.init.I = some kI) (hD : p.init.D = some kD)
    (hS : p.init.Setpoint = some sp) (hprev : p.init.prevProcessVariable = some prev)
    (hacc : p.init.accumulatedIntegral = some acc)
    (hd : Int.tdiv d 1000000000 ≤ -1) :
    ∃ out p', p.Accumulate m d = some (out, p') ∧ seconds d ≤ -1 ∧
      p'.accumulatedIntegral = some (p.enforceRange ((sp - m) * seconds d * kI + acc)) ∧
      out = p.enforceRange
        (kP * (sp - m) + p.enforceRange ((sp - m) * seconds d * kI + acc)) ∧
      ∀ kD' prev' : ℚ,
        (({ p.init with D := some kD', prevProcessVariable := some prev' } :
          Controller).Accumulate m d).map Prod.fst = some out := by
  have hs : seconds d ≤ -1 := by
    unfold seconds Second
    exact_mod_cast hd
  have hneg : ¬ seconds d > 0 := by
    linarith
  have key : ∀ q : Controller, ∀ x y : ℚ, q.init.P = some kP → q.init.I = some kI →
      q.init.D = some x → q.init.Setpoint = some sp →
      q.init.prevProcessVariable = some y → q.init.accumulatedIntegral = some acc →
      q.Min = p.Min → q.Max = p.Max →
      q.Accumulate m d =
        some (p.enforceRange
            (kP * (sp - m) + p.enforceRange ((sp - m) * seconds d * kI + acc)),
          { q.init with
              prevProcessVariable := some m
              accumulatedIntegral :=
                some (p.enforceRange ((sp - m) * seconds d * kI + acc)) }) := by
    intro q x y h1 h2 h3 h4 h5 h6 h7 h8
    rw [Accumulate_of_init q kP kI x sp y acc m d h1 h2 h3 h4 h5 h6]
    simp only [hneg, if_false, zero_mul, add_zero, enforceRange_congr p q _ h7 h8]
  refine ⟨_, _, key p kD prev hP hI hD hS hprev hacc rfl rfl, hs, rfl, rfl, ?_⟩
  intro kD' prev'
  have hi : ({ p.init with D := some kD', prevProcessVariable := some prev' } :
      Controller).init = { p.init with D := some kD', prevProcessVariable := some prev' } :=
    init_of_once _ (init_initOnce p)
  rw [key ({ p.init with D := some kD', prevProcessVariable := some prev' } : Controller)
    kD' prev' (by rw [hi]; exact hP) (by rw [hi]; exact hI) (by rw [hi])
    (by rw [hi]; exact hS) (by rw [hi]) (by rw [hi]; exact hacc) (init_Min p) (init_Max p)]
  rfl

/-- C17 at `midRun` (gains 2, 1, 3, setpoint 10, integral 7), measurement 6,
    1.5 s back in time: `dt = -1`, the call stores `4 * (-1) * 1 + 7 = 3` and
    returns `2 * 4 + 3 = 11`. -/
theorem accumulate_negative_duration_witness :
    Int.tdiv (-1500000000) 1000000000 ≤ -1 ∧
    ∃ p', midRun.Accumulate 6 (-1500000000) = some (11, p') ∧
      p'.accumulatedIntegral = some 3 := by
  have hs : seconds (-1500000000) = -1 := by
    have h : Int.tdiv (-1500000000) Second = -1 := by decide
    simp [seconds, h]
  refine ⟨by decide, ?_⟩
  obtain ⟨out, p', h, -, hacc, hout, -⟩ :=
    accumulate_negative_duration midRun 2 1 3 10 4 7 6 (-1500000000) rfl rfl rfl rfl rfl rfl
      (by decide)
  have h3 : midRun.enforceRange ((10 - 6) * seconds (-1500000000) * 1 + 7) = 3 := by
    rw [hs]
    norm_num [enforceRange_eq, midRun]
  rw [h3] at hacc hout
  have h11 : out = 11 := by
    rw [hout]
    norm_num [enforceRange_eq, midRun]
  rw [h11] at h
  exact ⟨p', h, hacc⟩

/-- C18: on an initialised controller `Accumulate` returns and leaves `P`, `I`,
    `D`, `Setpoint`, `Min` and `Max` as they were: the controller after the call
    is the one before with a new previous measurement and a new accumulated
    integral (and the once-guard marked as run). -/
theorem accumulate_frame (p : Controller) (kP kI kD sp prev acc m : ℚ) (d : Int)
    (hP : p.P = some kP) (hI : p.I = some kI) (hD : p.D = some kD)
    (hS : p.Setpoint = some sp) (hprev : p.prevProcessVariable = some prev)
    (hacc : p.accumulatedIntegral = some acc) :
    ∃ out p', p.Accumulate m d = some (out, p') ∧
      p'.P = p.P ∧ p'.I = p.I ∧ p'.D = p.D ∧ p'.Setpoint = p.Setpoint ∧
      p'.Min = p.Min ∧ p'.Max = p.Max ∧
      p' = { p with
              prevProcessVariable := p'.prevProcessVariable
              accumulatedIntegral := p'.accumulatedIntegral
              initOnce := true } := by
  rw [Accumulate_of_set p kP kI kD sp prev acc m d hP hI hD hS hprev hacc]
  exact ⟨_, _, rfl, rfl, rfl, rfl, rfl, rfl, rfl, rfl⟩

/-- C18 at `midRun`, measurement 6 after 2.5 s: gains, setpoint and bounds are
    those of `midRun` after the call. -/
theorem accumulate_frame_witness :
    ∃ out p', midRun.Accumulate 6 2500000000 = some (out, p') ∧
      p'.P = some 2 ∧ p'.I = some 1 ∧ p'.D = some 3 ∧ p'.Setpoint = some 10 ∧
      p'.Min = some (-50) ∧ p'.Max = some 50 := by
  obtain ⟨out, p', h, h1, h2, h3, h4, h5, h6, -⟩ :=
    accumulate_frame midRun 2 1 3 10 4 7 6 2500000000 rfl rfl rfl rfl rfl rfl
  exact ⟨out, p', h, h1, h2, h3, h4, h5, h6⟩

/-- C19: on an initialised controller with `P ≥ 0`, `I ≥ 0` and bounds that are
    in order whenever both are set, for a duration of zero whole seconds or more,
    raising the setpoint from `s1` to `s2 ≥ s1` and changing nothing else lowers
    neither the output of `Accumulate` nor the accumulated integral it stores. -/
theorem accumulate_mono_setpoint (p : Controller) (kP kI kD prev acc m s1 s2 : ℚ) (d : Int)
    (hP : p.P = some kP) (hI : p.I = some kI) (hD : p.D = some kD)
    (hprev : p.prevProcessVariable = some prev) (hacc : p.accumulatedIntegral = some acc)
    (hkP : 0 ≤ kP) (hkI : 0 ≤ kI)
    (hord : ∀ mn mx, p.Min = some mn → p.Max = some mx → mn ≤ mx)
    (hd : 0 ≤ Int.tdiv d 1000000000) (hs : s1 ≤ s2) :
    ∃ out1 p1 a1 out2 p2 a2,
      ({ p with Setpoint := some s1 } : Controller).Accumulate m d = some (out1, p1) ∧
      ({ p with Setpoint := some s2 } : Controller).Accumulate m d = some (out2, p2) ∧
      p1.accumulatedIntegral = some a1 ∧ p2.accumulatedIntegral = some a2 ∧
      out1 ≤ out2 ∧ a1 ≤ a2 := by
  have hdt : 0 ≤ seconds d := by
    unfold seconds Second
    exact_mod_cast hd
  have e : ∀ (s v : ℚ), ({ p with Setpoint := some s } : Controller).enforceRange v =
      p.enforceRange v := fun s v => enforceRange_congr p _ v rfl rfl
  have hint : (s1 - m) * seconds d * kI + acc ≤ (s2 - m) * seconds d * kI + acc := by
    have h1 : (s1 - m) * seconds d ≤ (s2 - m) * seconds d :=
      mul_le_mul_of_nonneg_right (by linarith) hdt
    have h2 := mul_le_mul_of_nonneg_right h1 hkI
    linarith
  have hclamp := enforceRange_mono p _ _ hord hint
  have hprop : kP * (s1 - m) ≤ kP * (s2 - m) :=
    mul_le_mul_of_nonneg_left (by linarith) hkP
  rw [Accumulate_of_set ({ p with Setpoint := some s1 } : Controller) kP kI kD s1 prev acc m d
      hP hI hD rfl hprev hacc,
    Accumulate_of_set ({ p with Setpoint := some s2 } : Controller) kP kI kD s2 prev acc m d
      hP hI hD rfl hprev hacc]
  refine ⟨_, _, _, _, _, _, rfl, rfl, rfl, rfl, ?_, ?_⟩
  · rw [e, e, e, e]
    exact enforceRange_mono p _ _ hord (by linarith)
  · rw [e, e]
    exact hclamp

/-- C19 at `midRun`, measurement 6 after 2.5 s, with the setpoints 10 and 12. -/
theorem accumulate_mono_setpoint_witness :
    ∃ out1 p1 a1 out2 p2 a2,
      ({ midRun with Setpoint := some 10 } : Controller).Accumulate 6 2500000000 =
        some (out1, p1) ∧
      ({ midRun with Setpoint := some 12 } : Controller).Accumulate 6 2500000000 =
        some (out2, p2) ∧
      p1.accumulatedIntegral = some a1 ∧ p2.accumulatedIntegral = some a2 ∧
      out1 ≤ out2 ∧ a1 ≤ a2 :=
  accumulate_mono_setpoint midRun 2 1 3 4 7 6 10 12 2500000000 rfl rfl rfl rfl rfl
    (by norm_num) (by norm_num)
    (by intro mn mx h1 h2; cases h1; cases h2; norm_num)
    (by decide) (by norm_num)

/-- C20: with both bounds set and `Min > Max`, `enforceRange` returns `Max` for
    an argument above `Max` and `Min` for every other, never the argument itself;
    so `Accumulate`, which returns on every ready controller, only ever returns
    `Min` or `Max` and only ever stores `Min` or `Max` as the accumulated
    integral, and an output equal to `Min` is above `Max`. -/
theorem misconfigured_bounds (p : Controller) (mn mx m : ℚ) (d : Int)
    (hmin : p.Min = some mn) (hmax : p.Max = some mx) (hgt : mn > mx) :
    (∀ v, p.enforceRange v = (if v > mx then mx else mn) ∧ p.enforceRange v ≠ v) ∧
    (p.Ready → ∃ out p', p.Accumulate m d = some (out, p')) ∧
    ∀ out p', p.Accumulate m d = some (out, p') →
      (out = mn ∨ out = mx) ∧
      (p'.accumulatedIntegral = some mn ∨ p'.accumulatedIntegral = some mx) ∧
      (out = mn → out > mx) := by
  have hclamp : ∀ v, p.enforceRange v = mn ∨ p.enforceRange v = mx := by
    intro v
    rw [enforceRange_inverted p v mn mx hmin hmax hgt]
    split_ifs
    · exact Or.inr rfl
    · exact Or.inl rfl
  refine ⟨fun v => ⟨enforceRange_inverted p v mn mx hmin hmax hgt, ?_⟩, ?_, ?_⟩
  · rw [enforceRange_inverted p v mn mx hmin hmax hgt]
    split_ifs with h
    · exact ne_of_lt h
    · exact ne_of_gt (lt_of_le_of_lt (not_lt.mp h) hgt)
  · intro hready
    obtain ⟨out, p', h, -⟩ := hready.accumulate m d
    exact ⟨out, p', h⟩
  · intro out p' h
    obtain ⟨⟨w, hw⟩, v, hv⟩ := Accumulate_some_clamped p p' m out d h
    refine ⟨?_, ?_, fun h1 => by rw [h1]; exact hgt⟩
    · rw [hw]
      exact hclamp w
    · rw [hv]
      rcases hclamp v with h1 | h1
      · exact Or.inl (by rw [h1])
      · exact Or.inr (by rw [h1])

/-- C20 at `freshInverted` (`Min = 3`, `Max = -3`), measurement 5 after 1 s:
    the call returns, and it returns 3 or -3. -/
theorem misconfigured_bounds_witness :
    ∃ out p', freshInverted.Accumulate 5 1000000000 = some (out, p') ∧
      (out = 3 ∨ out = -3) ∧
      (p'.accumulatedIntegral = some 3 ∨ p'.accumulatedIntegral = some (-3)) := by
  have hm := misconfigured_bounds freshInverted 3 (-3) 5 1000000000 rfl rfl (by norm_num)
  obtain ⟨out, p', h⟩ := hm.2.1 (Or.inl rfl)
  exact ⟨out, p', h, (hm.2.2 out p' h).1, (hm.2.2 out p' h).2.1⟩

end Controller

/-! ## The float64 adapter: construction -/

/-- C12 as stated fails: with a NaN proportional gain the constructor reports
    nothing and returns the very controller it returns for the gain `0`, which
    `Accumulate` then runs on. -/
theorem newControllerFloat64_counterexample :
    ratFloat64 Float64.nan = none ∧
    (NewControllerFloat64 Float64.nan (Float64.finite 1) (Float64.finite 2)
      (Float64.finite 3)).controller.P = some 0 ∧
    NewControllerFloat64 Float64.nan (Float64.finite 1) (Float64.finite 2) (Float64.finite 3) =
      NewControllerFloat64 (Float64.finite 0) (Float64.finite 1) (Float64.finite 2)
        (Float64.finite 3) ∧
    ((NewControllerFloat64 Float64.nan (Float64.finite 1) (Float64.finite 2)
      (Float64.finite 3)).controller.Accumulate 0 1000000000).map Prod.fst = some 3 := by
  refine ⟨rfl, rfl, rfl, ?_⟩
  have h : (NewControllerFloat64 Float64.nan (Float64.finite 1) (Float64.finite 2)
      (Float64.finite 3)).controller = Controller.settled 0 1 2 3 none none 0 0 := rfl
  have hs : seconds 1000000000 = 1 := by
    simp [seconds, Second, Int.tdiv]
  rw [h, Controller.Accumulate_settled, hs]
  norm_num [Controller.enforceRange_settled_unbounded]

/-- C12, amended: converting a non-finite `float64` gives nil and nothing else
    (a finite one gives its exact value), and `NewControllerFloat64` has no error
    to report: it always returns a ready controller, in which each of `P`, `I`,
    `D`, `Setpoint` is the exact value of its argument when that is finite and
    zero when it is not, the bounds are unset, and the previous measurement and
    the accumulated integral are zero. -/
theorem newControllerFloat64_defaults (p i d setpoint : Float64) :
    (∀ f : Float64, (f.isFinite = false ↔ ratFloat64 f = none) ∧
      (∀ value, f = Float64.finite value → ratFloat64 f = some value)) ∧
    (NewControllerFloat64 p i d setpoint).controller =
      Controller.settled ((ratFloat64 p).getD 0) ((ratFloat64 i).getD 0) ((ratFloat64 d).getD 0)
        ((ratFloat64 setpoint).getD 0) none none 0 0 ∧
    (NewControllerFloat64 p i d setpoint).controller.Ready ∧
    (∀ f : Float64, f.isFinite = false → (ratFloat64 f).getD 0 = 0) := by
  refine ⟨?_, ?_, ?_, ?_⟩
  · intro f
    cases f <;> simp [Float64.isFinite, ratFloat64, setFloat64]
  · exact Controller.init_fresh _ _ _ _ none none
  · refine Or.inr ?_
    have h : (NewControllerFloat64 p i d setpoint).controller =
      Controller.settled ((ratFloat64 p).getD 0) ((ratFloat64 i).getD 0) ((ratFloat64 d).getD 0)
        ((ratFloat64 setpoint).getD 0) none none 0 0 := Controller.init_fresh _ _ _ _ none none
    rw [h]
    simp [Controller.settled]
  · intro f hf
    cases f <;> simp_all [Float64.isFinite, ratFloat64, setFloat64]

/-- C12 (amended) at a call with an infinite derivative gain and a NaN
    setpoint. -/
theorem newControllerFloat64_defaults_witness :
    (NewControllerFloat64 (Float64.finite 2) (Float64.finite 1) Float64.posInf
      Float64.nan).controller = Controller.settled 2 1 0 0 none none 0 0 :=
  (newControllerFloat64_defaults (Float64.finite 2) (Float64.finite 1) Float64.posInf Float64.nan).2.1

end Pidctl
